import Mathlib

set_option maxHeartbeats 1000000

/- Shallow embedding of the discovery-and-dispatch core of the
LNbits-MCP-Server repository: the OpenAPI parser (openapi_parser.py),
the tool registry and its schema sanitizer (tool_registry.py), the
generic dispatcher (dispatcher.py) and the tool-call boundary
(server.py).  Python/JSON data is modelled by a mutual inductive type
of JSON values; Python dicts are ordered association lists with
Python's assignment semantics (replace in place, else append). -/

mutual
/-- A Python/JSON value as handled by the pipeline: strings, ints,
floats (modelled as rationals), booleans, None/null, lists and
string-keyed dicts. -/
inductive JVal : Type where
  | str (s : String)
  | int (n : Int)
  | float (q : Rat)
  | bool (b : Bool)
  | null
  | arr (xs : JArr)
  | obj (kvs : JObj)
  deriving DecidableEq, Repr

/-- A JSON array of values. -/
inductive JArr : Type where
  | nil
  | cons (hd : JVal) (tl : JArr)
  deriving DecidableEq, Repr

/-- A JSON object: an ordered association list with String keys,
mirroring a Python dict (unique keys, insertion order). -/
inductive JObj : Type where
  | nil
  | cons (k : String) (v : JVal) (tl : JObj)
  deriving DecidableEq, Repr
end

/-- Python d.get(k): the value at the first occurrence of key k. -/
def JObj.lookup : JObj → String → Option JVal
  | .nil, _ => none
  | .cons k0 v0 t, k => if k0 = k then some v0 else JObj.lookup t k

/-- Python `k in d`. -/
def JObj.hasKey (o : JObj) (k : String) : Bool := (o.lookup k).isSome

/-- Python d.get(k, default). -/
def JObj.getD (o : JObj) (k : String) (d : JVal) : JVal := (o.lookup k).getD d

/-- Python `d[k] = v`: replace the value at k in place, else append. -/
def JObj.set : JObj → String → JVal → JObj
  | .nil, k, v => .cons k v .nil
  | .cons k0 v0 t, k, v => if k0 = k then .cons k0 v t else .cons k0 v0 (JObj.set t k v)

/-- Python d.pop(k), the effect on the dict: remove the entry at k. -/
def JObj.erase : JObj → String → JObj
  | .nil, _ => .nil
  | .cons k0 v0 t, k => if k0 = k then t else .cons k0 v0 (JObj.erase t k)

/-- Python len(d). -/
def JObj.length : JObj → Nat
  | .nil => 0
  | .cons _ _ t => 1 + JObj.length t

/-- The keys of a dict, in order. -/
def JObj.keys : JObj → List String
  | .nil => []
  | .cons k _ t => k :: JObj.keys t

def JObj.isEmpty : JObj → Bool
  | .nil => true
  | .cons _ _ _ => false

def JArr.isEmpty : JArr → Bool
  | .nil => true
  | .cons _ _ => false

def JArr.length : JArr → Nat
  | .nil => 0
  | .cons _ t => 1 + JArr.length t

/-- Python `x in xs` for a list, with structural (==) equality. -/
def jarrMem (x : JVal) : JArr → Bool
  | .nil => false
  | .cons h t => if x = h then true else jarrMem x t

/-- Convert a Lean list of values to a JSON array. -/
def listToJArr : List JVal → JArr
  | [] => .nil
  | v :: t => .cons v (listToJArr t)

/-- Python truthiness of a value (bool(x)). -/
def pyTruthy : JVal → Bool
  | .str s => s ≠ ""
  | .int n => n ≠ 0
  | .float q => q ≠ 0
  | .bool b => b
  | .null => false
  | .arr xs => ! xs.isEmpty
  | .obj kvs => ! kvs.isEmpty

/-- Lookup in a string-keyed association list (a Python dict whose
values live in an arbitrary type). -/
def assocLookup {α : Type} : List (String × α) → String → Option α
  | [], _ => none
  | (k0, v0) :: t, k => if k0 = k then some v0 else assocLookup t k

/-- Python `d[k] = v` on a string-keyed association list. -/
def setAssoc {α : Type} : List (String × α) → String → α → List (String × α)
  | [], k, v => [(k, v)]
  | (k0, v0) :: t, k, v => if k0 = k then (k0, v) :: t else (k0, v0) :: setAssoc t k v

def hasKeyAssoc {α : Type} (l : List (String × α)) (k : String) : Bool :=
  (assocLookup l k).isSome

/-- Is `pat` a contiguous subsequence of `l` (Python `sub in s` for strings)? -/
def containsSeq (pat : List Char) : List Char → Bool
  | [] => pat.isEmpty
  | c :: t => pat.isPrefixOf (c :: t) || containsSeq pat t

/-- Python `s.startswith(pre)`. -/
def strStartsWith (s pre : String) : Bool := pre.data.isPrefixOf s.data

/-- Python `sub in s`. -/
def strContains (s sub : String) : Bool := containsSeq sub.data s.data

/-- Strip characters satisfying p from both ends (Python str.strip family). -/
def stripBy (p : Char → Bool) (l : List Char) : List Char :=
  ((l.dropWhile p).reverse.dropWhile p).reverse

/-- Python `s.lower()` (ASCII; the pipeline's tags and paths are ASCII). -/
def lowerStr (s : String) : String := String.mk (s.data.map Char.toLower)

/-- Python `s.upper()` (ASCII; HTTP method names are ASCII). -/
def upperStr (s : String) : String := String.mk (s.data.map Char.toUpper)

/-- Python whitespace stripped by str.strip(). -/
def isPyWs (c : Char) : Bool :=
  c = ' ' || c = '\t' || c = '\n' || c = '\r' || c = '\x0b' || c = '\x0c'

/-- Characters kept verbatim by _slugify's regex [^a-z0-9]+. -/
def keepSlugChar (c : Char) : Bool :=
  ('a' ≤ c && c ≤ 'z') || ('0' ≤ c && c ≤ '9')

/-- Worker for collapseNonSlug: inRun records whether the previous
character was part of a non-slug run (whose underscore is already
emitted). -/
def collapseAux : Bool → List Char → List Char
  | _, [] => []
  | inRun, c :: rest =>
    if keepSlugChar c then c :: collapseAux false rest
    else if inRun then collapseAux true rest
    else '_' :: collapseAux true rest

/-- re.sub(r"[^a-z0-9]+", "_", text): replace each maximal run of
non-slug characters with one underscore. -/
def collapseNonSlug (l : List Char) : List Char := collapseAux false l

/-- _slugify from openapi_parser.py: lowercase, strip whitespace,
collapse non-alphanumeric runs to underscores, strip underscores. -/
def slugify (s : String) : String :=
  String.mk (stripBy (fun c => c = '_')
    (collapseNonSlug (stripBy isPyWs (s.data.map Char.toLower))))

/-- _METHOD_ACTIONS.get(method, method). -/
def methodAction (m : String) : String :=
  if m = "get" then "get"
  else if m = "post" then "create"
  else if m = "put" then "update"
  else if m = "patch" then "update"
  else if m = "delete" then "delete"
  else m

/-- Membership in _METHOD_ACTIONS (the five supported verbs). -/
def isSupportedMethod (m : String) : Bool :=
  m = "get" || m = "post" || m = "put" || m = "patch" || m = "delete"

/-- Python s.startswith("\x7b") for a path segment. -/
def startsWithBrace (s : String) : Bool := s.data.head? = some (Char.ofNat 123)

/-- path.strip("/").split("/") as used by the parser. -/
def pathParts (path : String) : List String :=
  ((stripBy (fun c => c = '/') path.data).splitOn '/').map String.mk

/-- OpenAPIParser._build_tool_name. -/
def buildToolName (tag method path : String) : String :=
  let tagSlug := slugify tag
  let action := methodAction method
  let allSegs := pathParts path
  let segments := allSegs.filter (fun s => ! startsWithBrace s)
  let resource := (segments.getLast?).getD "resource"
  let resourceSlug := slugify resource
  let lastIsParam :=
    match allSegs.getLast? with
    | some s => startsWithBrace s
    | none => false
  let action' :=
    if method = "get" && ! lastIsParam && resourceSlug ≠ "wallet" then "list" else action
  tagSlug ++ "_" ++ action' ++ "_" ++ resourceSlug

/-- OpenAPIParser._detect_extension: the first path segment when there
are at least three segments and the second is literally "api". -/
def detectExtension (path : String) : Option String :=
  match pathParts path with
  | p0 :: p1 :: _ :: _ => if p1 = "api" then some p0 else none
  | _ => none

/-- Decimal digit character (codes 48..57). -/
def digitChar (d : Nat) : Char := Char.ofNat (48 + d)

/-- Fuelled decimal writer: fuel bounds the number of divisions by ten
(n itself always suffices). -/
def natStrGo : Nat → Nat → List Char
  | 0, _ => []
  | fuel + 1, n =>
    if n < 10 then [digitChar n]
    else natStrGo fuel (n / 10) ++ [digitChar (n % 10)]

/-- Decimal representation of a natural number, as Python str(n). -/
def natStr (n : Nat) : List Char := natStrGo (n + 1) n

/-- The operation object of the OpenAPI spec, restricted to the field
the naming pass reads: its declared tags. -/
structure SpecOp where
  tags : List String
  deriving DecidableEq, Repr

/-- (op.get("tags") or ["other"])[0]. -/
def specTag (op : SpecOp) : String := op.tags.headD "other"

/-- The raw (pre-deduplication) tool names of one parse pass, in
encounter order: for every path item and every supported method, the
name built by _build_tool_name. -/
def rawNames (paths : List (String × List (String × SpecOp))) : List String :=
  (paths.map (fun pi =>
    (pi.2.filter (fun mi => isSupportedMethod mi.1)).map
      (fun mi => buildToolName (specTag mi.2) mi.1 pi.1))).flatten

/-- The seen_names de-duplication loop of _parse_spec: a dict from raw
name to occurrence count; a repeated raw name r gets the suffixed name
r_c with c its new count. -/
def nameLoop (seen : List (String × Nat)) : List String → List String
  | [] => []
  | raw :: rest =>
    match assocLookup seen raw with
    | some c =>
        (raw ++ "_" ++ String.mk (natStr (c + 1))) :: nameLoop (setAssoc seen raw (c + 1)) rest
    | none => raw :: nameLoop (setAssoc seen raw 1) rest

/-- The tool_name sequence produced by OpenAPIParser._parse_spec on a
spec with the given paths table.  Only the naming behaviour of the
parse pass is modelled: the other fields of DiscoveredOperation do not
influence tool names. -/
def parseToolNames (paths : List (String × List (String × SpecOp))) : List String :=
  nameLoop [] (rawNames paths)

/-- The name the de-duplication assigns to a raw name r preceded by c
earlier occurrences of r: r itself when c = 0, else r_{c+1}. -/
def mkToolName (c : Nat) (r : String) : String :=
  if c = 0 then r else r ++ "_" ++ String.mk (natStr (c + 1))

/-- Count-based specification of the de-duplicated name sequence: the
j-th name is mkToolName applied to the number of earlier occurrences
of the j-th raw name. -/
def namesSpec (pre : List String) : List String → List String
  | [] => []
  | r :: rs => mkToolName (pre.count r) r :: namesSpec (pre ++ [r]) rs

/-- Does a reversed character list start with one or more digits and
then an underscore? Helper for endsUnderscoreDigits. -/
def revUDAux : List Char → Bool
  | [] => false
  | c :: rest => if c.isDigit then revUDAux rest else c = '_'

/-- Does a string end in an underscore followed by a nonempty run of
digits (the shape of a de-duplication suffix)? -/
def endsUnderscoreDigits (s : String) : Bool :=
  match s.data.reverse with
  | [] => false
  | c :: rest => c.isDigit && revUDAux rest

/-- One API operation as produced by the parser (the DiscoveredOperation
dataclass).  Parameter descriptors and schema fragments stay JSON dicts,
as in the source. -/
structure DiscoveredOperation where
  tool_name : String
  method : String
  path : String
  summary : String
  description : String
  tag : String
  parameters : List JObj
  request_body_schema : Option JObj
  security_schemes : List String
  is_public : Bool
  extension_name : Option String
  deriving DecidableEq, Repr

/-- The path-parameter and query-parameter name sets built at the top
of Dispatcher._separate_params.  Parameter names are JSON values, read
with param.get("name", "") and classified by param.get("in", "query"). -/
def paramLocSets : List JObj → List JVal × List JVal
  | [] => ([], [])
  | p :: rest =>
    let (ps, qs) := paramLocSets rest
    let loc := p.getD "in" (.str "query")
    let name := p.getD "name" (.str "")
    if loc = .str "path" then (name :: ps, qs)
    else if loc = .str "query" then (ps, name :: qs)
    else (ps, qs)

/-- The argument partition loop of Dispatcher._separate_params: path
keys are dropped, declared query keys go to the query dict, everything
else goes to the body dict. -/
def separateGo (pathNs queryNs : List JVal) :
    List (String × JVal) → List (String × JVal) × List (String × JVal)
  | [] => ([], [])
  | (k, v) :: rest =>
    let r := separateGo pathNs queryNs rest
    if (JVal.str k) ∈ pathNs then r
    else if (JVal.str k) ∈ queryNs then ((k, v) :: r.1, r.2)
    else (r.1, (k, v) :: r.2)

/-- Dispatcher._separate_params. -/
def separateParams (op : DiscoveredOperation) (args : List (String × JVal)) :
    List (String × JVal) × List (String × JVal) :=
  let sets := paramLocSets op.parameters
  separateGo sets.1 sets.2 args

/-- Dispatcher._needs_user_auth: does any declared parameter carry a
name in the fixed user-auth set? -/
def needsUserAuth (op : DiscoveredOperation) : Bool :=
  op.parameters.any (fun p =>
    match p.lookup "name" with
    | some v => v = .str "usr" || v = .str "cookie_access_token"
    | none => false)

/-- The extra_headers built in Dispatcher.dispatch: a single bearer
header iff a truthy access token is supplied and the operation needs
user-level auth. -/
def authHeaders (accessToken : Option String) (op : DiscoveredOperation) :
    List (String × String) :=
  match accessToken with
  | some t => if t ≠ "" && needsUserAuth op then [("Authorization", "Bearer " ++ t)] else []
  | none => []

/-- UTF-8 encoding of one character, as Python encodes str to bytes. -/
def utf8Bytes (c : Char) : List Nat :=
  let n := c.toNat
  if n < 128 then [n]
  else if n < 2048 then [192 + n / 64, 128 + n % 64]
  else if n < 65536 then [224 + n / 4096, 128 + (n / 64) % 64, 128 + n % 64]
  else [240 + n / 262144, 128 + (n / 4096) % 64, 128 + (n / 64) % 64, 128 + n % 64]

/-- Bytes urllib.parse.quote never escapes (letters, digits, _.-~);
with safe='' nothing else is exempt. -/
def unreservedByte (b : Nat) : Bool :=
  (65 ≤ b && b ≤ 90) || (97 ≤ b && b ≤ 122) || (48 ≤ b && b ≤ 57) ||
    b = 45 || b = 46 || b = 95 || b = 126

/-- Uppercase hex digit for a value below 16. -/
def hexDigitChar (n : Nat) : Char :=
  if n < 10 then Char.ofNat (48 + n) else Char.ofNat (55 + n)

/-- Percent-encoding of one byte. -/
def quoteByte (b : Nat) : List Char :=
  if unreservedByte b then [Char.ofNat b]
  else ['%', hexDigitChar (b / 16), hexDigitChar (b % 16)]

/-- urllib.parse.quote(s, safe=''), as applied to the BOLT11 string. -/
def pyQuoteAll (s : String) : String :=
  String.mk (((s.data.map utf8Bytes).flatten.map quoteByte).flatten)

/-- Python s.rstrip("/"). -/
def rstripSlashes (s : String) : String :=
  String.mk ((s.data.reverse.dropWhile (fun c => c = '/')).reverse)

/-- Python `a or b` over two optional values (dict .get results):
the first operand when truthy, otherwise the second. -/
def pyOrJ (x y : Option JVal) : Option JVal :=
  match x with
  | some v => if pyTruthy v then some v else y
  | none => y

/-- Dispatcher._enrich_invoice.  Returns none when the source would
raise a TypeError (quote applied to a truthy non-string value). -/
def enrichInvoice (result : JVal) (op : DiscoveredOperation)
    (args : List (String × JVal)) (lnbitsUrl : String) : Option JVal :=
  if op.tool_name ≠ "payments_create_payments" then some result
  else if pyTruthy ((assocLookup args "out").getD (.bool false)) then some result
  else
    match result with
    | .obj kvs =>
      match pyOrJ (kvs.lookup "payment_request") (kvs.lookup "bolt11") with
      | none => some result
      | some v =>
        if ! pyTruthy v then some result
        else
          match v with
          | .str s =>
            let base := rstripSlashes lnbitsUrl
            some (.obj ((kvs.set "qr_code"
                (.str (base ++ "/api/v1/qrcode/" ++ pyQuoteAll s))).set
                "lightning_uri" (.str ("lightning:" ++ s))))
          | _ => none
    | _ => some result

/-- ToolRegistry._ALLOWED_KEYWORDS. -/
def allowedKeywords : List String :=
  ["type", "properties", "required", "items", "enum", "anyOf", "oneOf", "allOf",
   "minimum", "maximum", "exclusiveMinimum", "exclusiveMaximum", "pattern",
   "format", "description", "default", "additionalProperties", "minItems",
   "maxItems", "minLength", "maxLength", "const", "prefixItems", "$ref"]

/-- ToolRegistry._NUMERIC_KEYWORDS. -/
def numericKeywords : List String :=
  ["minimum", "maximum", "exclusiveMinimum", "exclusiveMaximum",
   "minItems", "maxItems", "minLength", "maxLength"]

/-- Is the key one of the anyOf/oneOf/allOf combinators? -/
def isCombinator (k : String) : Bool := k = "anyOf" || k = "oneOf" || k = "allOf"

/-- Python int(q) for a float: truncation toward zero. -/
def ratTrunc (q : Rat) : Int := Int.tdiv q.num (q.den : Int)

/-- int(value) if value == int(value) else value, for a float value. -/
def coerceNum (q : Rat) : JVal :=
  if ((ratTrunc q : Int) : Rat) = q then .int (ratTrunc q) else .float q

/-- The nullable-to-anyOf rewrite at the end of _sanitize_schema: when
the source schema was truthy-nullable and the filtered result has a
type, pop the type and replace it by an anyOf with null. -/
def nullRewrite (isNullable : Bool) (r : JObj) : JObj :=
  if isNullable && r.hasKey "type" then
    match r.lookup "type" with
    | some t =>
        (r.erase "type").set "anyOf"
          (.arr (.cons (.obj (.cons "type" t .nil))
            (.cons (.obj (.cons "type" (.str "null") .nil)) .nil)))
    | none => r
  else r

/-- Any of the five type-bearing keywords checked by the sanitizer's
default-type step. -/
def hasTypeBearing (r : JObj) : Bool :=
  r.hasKey "type" || r.hasKey "anyOf" || r.hasKey "oneOf" || r.hasKey "allOf" ||
    r.hasKey "$ref"

/-- The default-type step at the end of _sanitize_schema: a non-empty
result without type-bearing keyword gets type "string", but only when
it still carries an enum or a description. -/
def tailDefault (r : JObj) : JObj :=
  if ! r.isEmpty && ! hasTypeBearing r then
    (if r.hasKey "enum" || r.hasKey "description" then r.set "type" (.str "string") else r)
  else r

/-- The post-processing steps of _sanitize_schema applied to the
filtered entries r of the source dict src: the nullable-to-anyOf
rewrite (nullable is read from src) and the default-type step. -/
def sanPost (src r : JObj) : JObj :=
  tailDefault (nullRewrite (pyTruthy (src.getD "nullable" (.bool false))) r)

mutual
/-- The key/value filtering loop of ToolRegistry._sanitize_schema:
keep allowed keywords only, recursing into properties, items, the
combinators and additionalProperties, and coerce integral floats in
numeric keywords.  The keys of a Python dict are unique, so building
the result by assignment appends in source order. -/
def sanEntries : JObj → JObj
  | .nil => .nil
  | .cons k v t =>
    if ! allowedKeywords.contains k then sanEntries t
    else if k = "properties" then
      match v with
      | .obj props => .cons k (.obj (sanProps props)) (sanEntries t)
      | _ => .cons k v (sanEntries t)
    else if k = "items" then
      match v with
      | .obj m' => .cons k (.obj (sanPost m' (sanEntries m'))) (sanEntries t)
      | _ => .cons k v (sanEntries t)
    else if isCombinator k then
      match v with
      | .arr xs => .cons k (.arr (sanMembers xs)) (sanEntries t)
      | _ => .cons k v (sanEntries t)
    else if k = "additionalProperties" then
      match v with
      | .obj m' => .cons k (.obj (sanPost m' (sanEntries m'))) (sanEntries t)
      | _ => .cons k v (sanEntries t)
    else if numericKeywords.contains k then
      match v with
      | .float q => .cons k (coerceNum q) (sanEntries t)
      | _ => .cons k v (sanEntries t)
    else .cons k v (sanEntries t)

/-- The properties sub-map of the filtering loop: sanitize dict-valued
members fully, keep the rest verbatim. -/
def sanProps : JObj → JObj
  | .nil => .nil
  | .cons k v t =>
    match v with
    | .obj m' => .cons k (.obj (sanPost m' (sanEntries m'))) (sanProps t)
    | _ => .cons k v (sanProps t)

/-- The combinator-member map of the filtering loop: sanitize
dict-valued members fully, keep the rest verbatim. -/
def sanMembers : JArr → JArr
  | .nil => .nil
  | .cons v t =>
    match v with
    | .obj m' => .cons (.obj (sanPost m' (sanEntries m'))) (sanMembers t)
    | _ => .cons v (sanMembers t)
end

/-- ToolRegistry._sanitize_schema: the filtering loop followed by the
nullable rewrite and the default-type step. -/
def sanitizeSchema (m : JObj) : JObj := sanPost m (sanEntries m)

/-- ToolRegistry._extract_prop: turn a bare title into a description,
sanitize, then guarantee a type-bearing keyword (enum counts here). -/
def extractProp (schema : JObj) : JObj :=
  let prepared :=
    if ! schema.hasKey "description" && schema.hasKey "title" then
      match schema.lookup "title" with
      | some tv => (schema.erase "title").set "description" tv
      | none => schema
    else schema
  let result := sanitizeSchema prepared
  if ! (result.hasKey "type" || result.hasKey "anyOf" || result.hasKey "oneOf" ||
        result.hasKey "allOf" || result.hasKey "enum" || result.hasKey "$ref") then
    result.set "type" (.str "string")
  else result

/-- The parameter names _build_input_schema hides from tool callers. -/
def hiddenParams : List String := ["usr", "cookie_access_token"]

/-- Python `x in container` for the membership checks of the schema
builder; none models the TypeError cases. -/
def pyIn (x : JVal) (container : JVal) : Option Bool :=
  match container with
  | .arr xs => some (jarrMem x xs)
  | .str s =>
    match x with
    | .str xs => some (containsSeq xs.data s.data)
    | _ => none
  | .obj o =>
    match x with
    | .str xs => some (o.hasKey xs)
    | _ => some false
  | _ => none

/-- The parameter loop of _build_input_schema: skip hidden and cookie
parameters, extract each schema (default {type: string}), record
required names.  none models a TypeError (non-string parameter name or
non-dict schema value, outside the parser-produced domain). -/
def buildParamsGo : List JObj → JObj → List String → Option (JObj × List String)
  | [], props, req => some (props, req)
  | p :: rest, props, req =>
    match p.getD "name" (.str "") with
    | .str nm =>
      if nm ∈ hiddenParams then buildParamsGo rest props req
      else if p.lookup "in" = some (.str "cookie") then buildParamsGo rest props req
      else
        match p.getD "schema" (.obj (.cons "type" (.str "string") .nil)) with
        | .obj m =>
          buildParamsGo rest (props.set nm (.obj (extractProp m)))
            (if pyTruthy (p.getD "required" (.bool false)) then req ++ [nm] else req)
        | _ => none
    | _ => none

/-- The request-body loop of _build_input_schema: each body property is
extracted and stored (overwriting a same-named parameter), and names
in the body's required list are appended to required. -/
def buildBodyGo (bodyReq : JVal) : JObj → JObj → List String → Option (JObj × List String)
  | .nil, props, req => some (props, req)
  | .cons k v t, props, req =>
    match v with
    | .obj m =>
      match pyIn (.str k) bodyReq with
      | some b =>
          buildBodyGo bodyReq t (props.set k (.obj (extractProp m)))
            (if b then req ++ [k] else req)
      | none => none
    | _ => none

/-- ToolRegistry._build_input_schema. -/
def buildInputSchema (op : DiscoveredOperation) : Option JObj :=
  match buildParamsGo op.parameters .nil [] with
  | none => none
  | some (props0, req0) =>
    let afterBody :=
      match op.request_body_schema with
      | none => some (props0, req0)
      | some body =>
        match body.getD "properties" (.obj .nil) with
        | .obj bodyProps =>
            buildBodyGo ((body.lookup "required").getD (.arr .nil)) bodyProps props0 req0
        | _ => none
    match afterBody with
    | none => none
    | some (props, req) =>
      if req.isEmpty then
        some (.cons "type" (.str "object") (.cons "properties" (.obj props) .nil))
      else
        some (.cons "type" (.str "object") (.cons "properties" (.obj props)
          (.cons "required" (.arr (listToJArr (req.map JVal.str))) .nil)))

/-- RegistryConfig with its defaults. -/
structure RegistryConfig where
  exclude_methods : List String := ["DELETE"]
  exclude_paths : List String := ["/docs", "/openapi.json", "/redoc"]
  include_extensions : Option (List String) := none
  exclude_extensions : Option (List String) := none
  max_tools : Int := 200
  deriving DecidableEq, Repr

/-- SKIP_TAGS from curated_descriptions.py. -/
def skipTags : List String := ["Admin UI", "Webpush", "Websocket"]

/-- ToolRegistry._should_skip. -/
def shouldSkip (cfg : RegistryConfig) (op : DiscoveredOperation) : Bool :=
  skipTags.contains op.tag
  || (cfg.exclude_methods.map upperStr).contains (upperStr op.method)
  || cfg.exclude_paths.any (fun pre => strStartsWith op.path pre)
  || ! strContains op.path "/api/"
  || (match op.extension_name with
      | some e =>
        if e = "" then false
        else
          (match cfg.include_extensions with
           | some incl => ! incl.contains e
           | none => false)
          ||
          (match cfg.exclude_extensions with
           | some excl => excl.contains e
           | none => false)
      | none => false)

/-- The accept loop of ToolRegistry.load: store accepted operations by
tool_name (dict assignment, so a repeated name overwrites) and stop
once the accepted count reaches max_tools. -/
def loadGo (cfg : RegistryConfig) :
    List DiscoveredOperation → List (String × DiscoveredOperation) → Nat →
      List (String × DiscoveredOperation) × Nat
  | [], m, acc => (m, acc)
  | op :: rest, m, acc =>
    if shouldSkip cfg op then loadGo cfg rest m acc
    else
      let m' := setAssoc m op.tool_name op
      if (acc + 1 : Int) ≥ cfg.max_tools then (m', acc + 1)
      else loadGo cfg rest m' (acc + 1)

/-- ToolRegistry.load on a cleared registry: the stored name-operation
map and the returned accepted count. -/
def load (cfg : RegistryConfig) (ops : List DiscoveredOperation) :
    List (String × DiscoveredOperation) × Nat :=
  loadGo cfg ops [] 0

/-- How many of the given operations pass the filter. -/
def acceptCount (cfg : RegistryConfig) (ops : List DiscoveredOperation) : Nat :=
  ops.countP (fun op => ! shouldSkip cfg op)

/-- An mcp.types.TextContent value. -/
structure TextContent where
  type : String
  text : String
  deriving DecidableEq, Repr

/-- The outcome of an awaited step inside the call_tool try block: a
value, a raised LNbitsError, or any other raised exception, each
carrying its rendered message. -/
inductive PyOutcome (α : Type) where
  | ok (a : α)
  | lnbitsErr (msg : String)
  | exn (msg : String)
  deriving DecidableEq, Repr

/-- META_TOOL_NAMES from meta_tools.py. -/
def metaToolNames : List String :=
  ["configure_lnbits", "test_connection", "get_configuration",
   "refresh_tools", "list_extensions", "pay_lightning_address"]

/-- The except clauses of call_tool applied to the outcome of the
awaited work: LNbitsError and generic exceptions become readable text,
a value is wrapped as-is. -/
def renderOutcome (o : PyOutcome String) : List TextContent :=
  match o with
  | .ok s => [⟨"text", s⟩]
  | .lnbitsErr e => [⟨"text", "LNbits API error: " ++ e⟩]
  | .exn e => [⟨"text", "Error: " ++ e⟩]

/-- The call_tool handler of server.py.  The registry is its name-to-
operation map; metaOutcome and dispatchOutcome are the outcomes of the
corresponding awaited calls (only the one actually reached matters). -/
def callTool (registry : List (String × DiscoveredOperation)) (name : String)
    (metaOutcome dispatchOutcome : PyOutcome String) : List TextContent :=
  if metaToolNames.contains name then renderOutcome metaOutcome
  else
    match assocLookup registry name with
    | none => [⟨"text", "Unknown tool: " ++ name⟩]
    | some _ => renderOutcome dispatchOutcome

/-- The postcondition of the default-type step: empty, or type-bearing,
or carrying neither enum nor description (helper for C5 and C7). -/
def tailPostOK (m : JObj) : Bool :=
  m.isEmpty || hasTypeBearing m ||
    (! m.hasKey "enum" && ! m.hasKey "description")

mutual
/-- Is this key/value entry a possible output entry of the sanitizer
filtering loop: an allowed keyword whose value is already in
sanitized form for the branch its key selects (helper for C7)? -/
def entryOK (k : String) : JVal → Bool
  | .obj props =>
    allowedKeywords.contains k &&
    (if k = "properties" then propsOK props
     else if k = "items" then entriesOK props && tailPostOK props
     else if isCombinator k then true
     else if k = "additionalProperties" then entriesOK props && tailPostOK props
     else true)
  | .arr xs =>
    allowedKeywords.contains k &&
    (if k = "properties" then true
     else if k = "items" then true
     else if isCombinator k then arrOK xs
     else true)
  | .float q =>
    allowedKeywords.contains k &&
    (if numericKeywords.contains k then ! decide (((ratTrunc q : Int) : Rat) = q)
     else true)
  | _ => allowedKeywords.contains k

/-- Are all entries of this dict possible sanitizer outputs? -/
def entriesOK : JObj → Bool
  | .nil => true
  | .cons k v t => entryOK k v && entriesOK t

/-- Are all dict-valued members of this properties map fully
sanitized? -/
def propsOK : JObj → Bool
  | .nil => true
  | .cons _ v t =>
    (match v with
     | .obj m' => entriesOK m' && tailPostOK m'
     | _ => true) && propsOK t

/-- Are all dict-valued members of this combinator list fully
sanitized? -/
def arrOK : JArr → Bool
  | .nil => true
  | .cons v t =>
    (match v with
     | .obj m' => entriesOK m' && tailPostOK m'
     | _ => true) && arrOK t
end

/-- Read a digit string back as a number (retraction of natStr, used
to prove natStr injective). -/
def natVal (l : List Char) : Nat :=
  l.foldl (fun a c => 10 * a + (c.toNat - 48)) 0

/-- How many entries of a body-properties dict carry the given key and
stand in the body's required list (helper for stating C10). -/
def objCountKeyIn (bodyReq : JVal) (n : String) : JObj → Nat
  | .nil => 0
  | .cons k _ t =>
    (if k = n ∧ pyIn (.str k) bodyReq = some true then 1 else 0) +
      objCountKeyIn bodyReq n t

/-- Occurrences of a value in a JSON array (helper for stating C10). -/
def jarrCount (x : JVal) : JArr → Nat
  | .nil => 0
  | .cons h t => (if x = h then 1 else 0) + jarrCount x t

/-- Does this parameter contribute the name n to the required list of
the built input schema: named n, not hidden, not a cookie parameter,
and marked required (helper for stating C10)? -/
def paramReqPred (n : String) (p : JObj) : Bool :=
  decide (p.getD "name" (.str "") = .str n) &&
  ! decide (n ∈ hiddenParams) &&
  ! decide (p.lookup "in" = some (.str "cookie")) &&
  pyTruthy (p.getD "required" (.bool false))

/- ------------------------------------------------------------------
   Helper lemmas about the dict model.
   ------------------------------------------------------------------ -/

/-- List-style induction for JObj alone (the mutual recursor with
trivial motives on values and arrays). -/
theorem jobjInduction {P : JObj → Prop} (nil : P .nil)
    (cons : ∀ k v t, P t → P (.cons k v t)) (m : JObj) : P m :=
  @JObj.rec (fun _ => True) (fun _ => True) P
    (fun _ => trivial) (fun _ => trivial) (fun _ => trivial) (fun _ => trivial)
    trivial (fun _ _ => trivial) (fun _ _ => trivial)
    trivial (fun _ _ _ _ => trivial)
    nil (fun k v t _ ht => cons k v t ht) m

/-- List-style induction for JArr alone. -/
theorem jarrInduction {P : JArr → Prop} (nil : P .nil)
    (cons : ∀ v t, P t → P (.cons v t)) (a : JArr) : P a :=
  @JArr.rec (fun _ => True) P (fun _ => True)
    (fun _ => trivial) (fun _ => trivial) (fun _ => trivial) (fun _ => trivial)
    trivial (fun _ _ => trivial) (fun _ _ => trivial)
    nil (fun v t _ ht => cons v t ht)
    trivial (fun _ _ _ _ _ => trivial) a

theorem JObj.lookup_set (m : JObj) (k : String) (v : JVal) (k' : String) :
    (m.set k v).lookup k' = if k = k' then some v else m.lookup k' := by
  induction m using jobjInduction with
  | nil => simp only [JObj.set, JObj.lookup]
  | cons k0 v0 t ih =>
    by_cases h0 : k0 = k
    · subst h0
      simp only [JObj.set, if_pos rfl, JObj.lookup]
      by_cases h1 : k0 = k'
      · simp [h1]
      · simp [h1]
    · simp only [JObj.set, if_neg h0, JObj.lookup]
      by_cases h1 : k0 = k'
      · subst h1
        have : ¬ k = k0 := fun h => h0 h.symm
        simp [this]
      · simp [h1, ih]

theorem JObj.hasKey_set (m : JObj) (k : String) (v : JVal) (k' : String) :
    (m.set k v).hasKey k' = (k = k' || m.hasKey k') := by
  simp only [JObj.hasKey, JObj.lookup_set]
  by_cases h : k = k' <;> simp [h]

theorem JObj.length_set (m : JObj) (k : String) (v : JVal) :
    (m.set k v).length = if m.hasKey k then m.length else m.length + 1 := by
  induction m using jobjInduction with
  | nil => simp [JObj.set, JObj.length, JObj.hasKey, JObj.lookup]
  | cons k0 v0 t ih =>
    by_cases h0 : k0 = k
    · subst h0
      simp [JObj.set, JObj.length, JObj.hasKey, JObj.lookup]
    · simp only [JObj.set, if_neg h0, JObj.length, ih, JObj.hasKey, JObj.lookup, if_neg h0]
      split <;> omega

theorem assocLookup_setAssoc {α : Type} (m : List (String × α)) (k : String) (v : α)
    (k' : String) :
    assocLookup (setAssoc m k v) k' = if k = k' then some v else assocLookup m k' := by
  induction m with
  | nil => simp only [setAssoc, assocLookup]
  | cons kv t ih =>
    obtain ⟨k0, v0⟩ := kv
    by_cases h0 : k0 = k
    · subst h0
      simp only [setAssoc, if_pos rfl, assocLookup]
      by_cases h1 : k0 = k'
      · simp [h1]
      · simp [h1]
    · simp only [setAssoc, if_neg h0, assocLookup]
      by_cases h1 : k0 = k'
      · subst h1
        have : ¬ k = k0 := fun h => h0 h.symm
        simp [this]
      · simp [h1, ih]

theorem setAssoc_length_le {α : Type} (m : List (String × α)) (k : String) (v : α) :
    (setAssoc m k v).length ≤ m.length + 1 := by
  induction m with
  | nil => simp [setAssoc]
  | cons kv t ih =>
    obtain ⟨k0, v0⟩ := kv
    by_cases h0 : k0 = k
    · simp [setAssoc, h0]
    · simp only [setAssoc, if_neg h0, List.length_cons]
      omega

/- ------------------------------------------------------------------
   C4: extension detection.
   ------------------------------------------------------------------ -/

/-- Claim C4 (corrected, counterexample): the claim states that
extension_name is set iff the second segment is "api" AND the first
segment is not itself "api"; but on the path "/api/api/v1" (segments
["api", "api", "v1"]) the code returns the extension "api" even though
the first segment is "api". -/
theorem C4_counterexample :
    pathParts "/api/api/v1" = ["api", "api", "v1"] ∧
      detectExtension "/api/api/v1" = some "api" := by
  constructor
  · decide
  · decide

/-- Claim C4 (amended): for every path, _detect_extension returns the
first segment e exactly when the split path has shape e :: "api" ::
rest with rest nonempty (at least three segments whose second is
literally "api"); the first segment is not excluded from being "api". -/
theorem C4_extension_characterization (path : String) (e : String) :
    detectExtension path = some e ↔
      ∃ rest, pathParts path = e :: "api" :: rest ∧ rest ≠ [] := by
  unfold detectExtension
  cases h : pathParts path with
  | nil => simp
  | cons p0 t =>
    cases t with
    | nil => simp
    | cons p1 t2 =>
      cases t2 with
      | nil => simp
      | cons p2 t3 =>
        by_cases hapi : p1 = "api"
        · subst hapi
          simp only [if_pos rfl]
          constructor
          · intro he
            injection he with he
            exact ⟨p2 :: t3, by simp [he], by simp⟩
          · rintro ⟨rest, hr, -⟩
            injection hr with h1 h2
            simp [h1]
        · simp only [if_neg hapi]
          constructor
          · intro he
            exact absurd he (by simp)
          · rintro ⟨rest, hr, -⟩
            injection hr with h1 h2
            injection h2 with h2 h3
            exact absurd h2 hapi

/-- Witness for C4_extension_characterization at a concrete extension
path of the repository's tests. -/
theorem C4_extension_characterization_witness :
    detectExtension "/lnurlp/api/v1/links" = some "lnurlp" :=
  (C4_extension_characterization "/lnurlp/api/v1/links" "lnurlp").mpr
    ⟨["v1", "links"], by decide, by decide⟩

/- ------------------------------------------------------------------
   C6: bearer-header injection.
   ------------------------------------------------------------------ -/

/-- Claim C6: dispatch adds the Authorization header iff a non-empty
access token is supplied and the operation declares a parameter named
usr or cookie_access_token; when added it is exactly the one header
Authorization: Bearer token, and in every other case no header is
added. -/
theorem C6_user_auth_header (op : DiscoveredOperation) (tok : Option String) :
    (needsUserAuth op = true ↔
      ∃ p, p ∈ op.parameters ∧
        (p.lookup "name" = some (.str "usr") ∨
          p.lookup "name" = some (.str "cookie_access_token")))
    ∧ (∀ t, tok = some t → t ≠ "" → needsUserAuth op = true →
        authHeaders tok op = [("Authorization", "Bearer " ++ t)])
    ∧ (needsUserAuth op = false → authHeaders tok op = [])
    ∧ (tok = none → authHeaders tok op = [])
    ∧ (tok = some "" → authHeaders tok op = []) := by
  refine ⟨?_, ?_, ?_, ?_, ?_⟩
  · simp only [needsUserAuth, List.any_eq_true]
    constructor
    · rintro ⟨p, hp, hmatch⟩
      refine ⟨p, hp, ?_⟩
      cases hl : p.lookup "name" with
      | none => rw [hl] at hmatch; simp at hmatch
      | some v =>
        rw [hl] at hmatch
        simp only [Bool.or_eq_true, decide_eq_true_eq] at hmatch
        rcases hmatch with h | h
        · subst h; exact Or.inl rfl
        · subst h; exact Or.inr rfl
    · rintro ⟨p, hp, hname⟩
      refine ⟨p, hp, ?_⟩
      rcases hname with h | h
      · rw [h]; simp
      · rw [h]; simp
  · rintro t rfl ht hn
    simp [authHeaders, ht, hn]
  · intro hn
    cases tok with
    | none => simp [authHeaders]
    | some t => simp [authHeaders, hn]
  · rintro rfl
    simp [authHeaders]
  · rintro rfl
    simp [authHeaders]

/-- Witness for C6_user_auth_header: an operation declaring a usr
parameter and a non-empty token get exactly the bearer header. -/
theorem C6_user_auth_header_witness :
    authHeaders (some "tk")
      ⟨"t", "GET", "/api/v1/x", "", "", "x", [.cons "name" (.str "usr") .nil],
        none, [], true, none⟩
      = [("Authorization", "Bearer tk")] :=
  (C6_user_auth_header
    ⟨"t", "GET", "/api/v1/x", "", "", "x", [.cons "name" (.str "usr") .nil],
      none, [], true, none⟩ (some "tk")).2.1 "tk" rfl (by decide) (by decide)

/- ------------------------------------------------------------------
   C8: the tool-call boundary.
   ------------------------------------------------------------------ -/

/-- Claim C8: call_tool always returns a single text content and never
propagates an exception: an unknown name yields plain Unknown-tool
text, a raised LNbitsError is rendered as LNbits-API-error text, and
any other exception is rendered as generic error text. -/
theorem C8_call_tool_total (reg : List (String × DiscoveredOperation)) (name : String)
    (metaOutcome dispatchOutcome : PyOutcome String) :
    (∃ t, callTool reg name metaOutcome dispatchOutcome = [⟨"text", t⟩])
    ∧ (metaToolNames.contains name = false → assocLookup reg name = none →
        callTool reg name metaOutcome dispatchOutcome =
          [⟨"text", "Unknown tool: " ++ name⟩])
    ∧ (∀ e op, metaToolNames.contains name = false → assocLookup reg name = some op →
        dispatchOutcome = .lnbitsErr e →
        callTool reg name metaOutcome dispatchOutcome =
          [⟨"text", "LNbits API error: " ++ e⟩])
    ∧ (∀ e op, metaToolNames.contains name = false → assocLookup reg name = some op →
        dispatchOutcome = .exn e →
        callTool reg name metaOutcome dispatchOutcome = [⟨"text", "Error: " ++ e⟩]) := by
  refine ⟨?_, ?_, ?_, ?_⟩
  · unfold callTool
    by_cases hm : metaToolNames.contains name
    · simp only [hm, if_pos]
      cases metaOutcome with
      | ok s => exact ⟨s, rfl⟩
      | lnbitsErr e => exact ⟨"LNbits API error: " ++ e, rfl⟩
      | exn e => exact ⟨"Error: " ++ e, rfl⟩
    · simp only [hm, Bool.false_eq_true, if_false]
      cases hl : assocLookup reg name with
      | none => exact ⟨"Unknown tool: " ++ name, rfl⟩
      | some op =>
        cases dispatchOutcome with
        | ok s => exact ⟨s, rfl⟩
        | lnbitsErr e => exact ⟨"LNbits API error: " ++ e, rfl⟩
        | exn e => exact ⟨"Error: " ++ e, rfl⟩
  · intro hm hl
    unfold callTool
    rw [hm, hl]
    simp
  · rintro e op hm hl rfl
    unfold callTool
    rw [hm, hl]
    simp [renderOutcome]
  · rintro e op hm hl rfl
    unfold callTool
    rw [hm, hl]
    simp [renderOutcome]

/-- Witness for C8_call_tool_total: the unknown-tool case at a
concrete name and an empty registry. -/
theorem C8_call_tool_total_witness :
    callTool [] "nope" (.ok "m") (.ok "d") = [⟨"text", "Unknown tool: nope"⟩] :=
  (C8_call_tool_total [] "nope" (.ok "m") (.ok "d")).2.1 (by decide) rfl

/- ------------------------------------------------------------------
   C2: the query/body partition of dispatch arguments.
   ------------------------------------------------------------------ -/

theorem separateGo_query_hasKey (pns qns : List JVal) (args : List (String × JVal))
    (k : String) :
    hasKeyAssoc (separateGo pns qns args).1 k = true ↔
      hasKeyAssoc args k = true ∧ (JVal.str k) ∉ pns ∧ (JVal.str k) ∈ qns := by
  induction args with
  | nil => simp [separateGo, hasKeyAssoc, assocLookup]
  | cons kv rest ih =>
    obtain ⟨k0, v0⟩ := kv
    by_cases h0 : k0 = k
    · subst h0
      by_cases hp : (JVal.str k0) ∈ pns
      · simp only [separateGo, if_pos hp, ih]
        simp [hasKeyAssoc, assocLookup, hp]
      · by_cases hq : (JVal.str k0) ∈ qns
        · simp only [separateGo, if_neg hp, if_pos hq]
          simp [hasKeyAssoc, assocLookup, hp, hq]
        · simp only [separateGo, if_neg hp, if_neg hq, ih]
          simp [hasKeyAssoc, assocLookup, hp, hq]
    · have hlift : ∀ l : List (String × JVal),
          hasKeyAssoc ((k0, v0) :: l) k = hasKeyAssoc l k := by
        intro l
        simp [hasKeyAssoc, assocLookup, h0]
      by_cases hp : (JVal.str k0) ∈ pns
      · simp only [separateGo, if_pos hp, ih, hlift]
      · by_cases hq : (JVal.str k0) ∈ qns
        · simp only [separateGo, if_neg hp, if_pos hq, hlift, ih]
        · simp only [separateGo, if_neg hp, if_neg hq, ih, hlift]

theorem separateGo_body_hasKey (pns qns : List JVal) (args : List (String × JVal))
    (k : String) :
    hasKeyAssoc (separateGo pns qns args).2 k = true ↔
      hasKeyAssoc args k = true ∧ (JVal.str k) ∉ pns ∧ (JVal.str k) ∉ qns := by
  induction args with
  | nil => simp [separateGo, hasKeyAssoc, assocLookup]
  | cons kv rest ih =>
    obtain ⟨k0, v0⟩ := kv
    by_cases h0 : k0 = k
    · subst h0
      by_cases hp : (JVal.str k0) ∈ pns
      · simp only [separateGo, if_pos hp, ih]
        simp [hasKeyAssoc, assocLookup, hp]
      · by_cases hq : (JVal.str k0) ∈ qns
        · simp only [separateGo, if_neg hp, if_pos hq, ih]
          simp [hasKeyAssoc, assocLookup, hp, hq]
        · simp only [separateGo, if_neg hp, if_neg hq]
          simp [hasKeyAssoc, assocLookup, hp, hq]
    · have hlift : ∀ l : List (String × JVal),
          hasKeyAssoc ((k0, v0) :: l) k = hasKeyAssoc l k := by
        intro l
        simp [hasKeyAssoc, assocLookup, h0]
      by_cases hp : (JVal.str k0) ∈ pns
      · simp only [separateGo, if_pos hp, ih, hlift]
      · by_cases hq : (JVal.str k0) ∈ qns
        · simp only [separateGo, if_neg hp, if_pos hq, hlift, ih]
        · simp only [separateGo, if_neg hp, if_neg hq, hlift, ih]

/-- Claim C2: every argument key lands in exactly one of dropped-as-
path, query, or body; keys matching a declared path parameter are
dropped, keys matching a declared query (and not path) parameter go to
query, all other keys go to body, and path-parameter keys never appear
in query or body; query and body contain no keys that were not
arguments. -/
theorem C2_argument_partition (op : DiscoveredOperation) (args : List (String × JVal))
    (k : String) :
    (hasKeyAssoc args k = true →
      ((JVal.str k ∈ (paramLocSets op.parameters).1 ∧
          hasKeyAssoc (separateParams op args).1 k = false ∧
          hasKeyAssoc (separateParams op args).2 k = false)
        ∨ (JVal.str k ∉ (paramLocSets op.parameters).1 ∧
            JVal.str k ∈ (paramLocSets op.parameters).2 ∧
            hasKeyAssoc (separateParams op args).1 k = true ∧
            hasKeyAssoc (separateParams op args).2 k = false)
        ∨ (JVal.str k ∉ (paramLocSets op.parameters).1 ∧
            JVal.str k ∉ (paramLocSets op.parameters).2 ∧
            hasKeyAssoc (separateParams op args).1 k = false ∧
            hasKeyAssoc (separateParams op args).2 k = true)))
    ∧ (JVal.str k ∈ (paramLocSets op.parameters).1 →
        hasKeyAssoc (separateParams op args).1 k = false ∧
        hasKeyAssoc (separateParams op args).2 k = false)
    ∧ ((hasKeyAssoc (separateParams op args).1 k = true ∨
        hasKeyAssoc (separateParams op args).2 k = true) →
        hasKeyAssoc args k = true) := by
  have hq := separateGo_query_hasKey (paramLocSets op.parameters).1
    (paramLocSets op.parameters).2 args k
  have hb := separateGo_body_hasKey (paramLocSets op.parameters).1
    (paramLocSets op.parameters).2 args k
  have e1 : (separateParams op args) =
      separateGo (paramLocSets op.parameters).1 (paramLocSets op.parameters).2 args := rfl
  rw [e1]
  have bf : ∀ b : Bool, b = false ↔ ¬ b = true := by
    intro b
    cases b <;> simp
  refine ⟨?_, ?_, ?_⟩
  · intro ha
    by_cases hp : JVal.str k ∈ (paramLocSets op.parameters).1
    · refine Or.inl ⟨hp, ?_, ?_⟩ <;> rw [bf] <;> tauto
    · by_cases hqm : JVal.str k ∈ (paramLocSets op.parameters).2
      · refine Or.inr (Or.inl ⟨hp, hqm, ?_, ?_⟩)
        · tauto
        · rw [bf]; tauto
      · refine Or.inr (Or.inr ⟨hp, hqm, ?_, ?_⟩)
        · rw [bf]; tauto
        · tauto
  · intro hp
    constructor <;> rw [bf] <;> tauto
  · intro h
    rcases h with h | h
    · exact (hq.mp h).1
    · exact (hb.mp h).1

/-- Witness for C2_argument_partition: an operation with a path
parameter id and a query parameter q, and arguments covering all three
cases. -/
theorem C2_argument_partition_witness :
    hasKeyAssoc
      (separateParams
        ⟨"t", "GET", "/api/v1/x/\x7bid\x7d", "", "", "x",
          [.cons "name" (.str "id") (.cons "in" (.str "path") .nil),
           .cons "name" (.str "q") (.cons "in" (.str "query") .nil)],
          none, [], true, none⟩
        [("id", .str "7"), ("q", .int 1), ("memo", .str "hi")]).1 "q" = true :=
  ((C2_argument_partition
    ⟨"t", "GET", "/api/v1/x/\x7bid\x7d", "", "", "x",
      [.cons "name" (.str "id") (.cons "in" (.str "path") .nil),
       .cons "name" (.str "q") (.cons "in" (.str "query") .nil)],
      none, [], true, none⟩
    [("id", .str "7"), ("q", .int 1), ("memo", .str "hi")] "q").1 (by decide)).elim
    (fun h => absurd h.1 (by decide))
    (fun h => h.elim (fun h => h.2.2.1) (fun h => absurd h.2.1 (by decide)))

/- ------------------------------------------------------------------
   C3: invoice-response enrichment.
   ------------------------------------------------------------------ -/

/-- Claim C3 (corrected, counterexample): the claim says any result
shape other than a mapping with a BOLT11 string passes through
unchanged; but a mapping whose payment_request value is truthy and not
a string (here the int 5) makes _enrich_invoice call quote() on a non
string, raising a TypeError (modelled as none) instead of passing the
result through. -/
theorem C3_counterexample :
    enrichInvoice (.obj (.cons "payment_request" (.int 5) .nil))
      ⟨"payments_create_payments", "POST", "/api/v1/payments", "", "", "Payments",
        [], none, [], false, none⟩
      [] "https://x.test" = none ∧
    enrichInvoice (.obj (.cons "payment_request" (.int 5) .nil))
      ⟨"payments_create_payments", "POST", "/api/v1/payments", "", "", "Payments",
        [], none, [], false, none⟩
      [] "https://x.test" ≠
        some (.obj (.cons "payment_request" (.int 5) .nil)) := by
  constructor
  · decide
  · decide

/-- Claim C3 (amended): for the invoice-creation operation with out
falsy and a mapping result whose selected payment_request-or-bolt11
value is a nonempty string s, the result gains qr_code (base URL with
the fixed path and the percent-encoded s) and lightning_uri
(lightning: followed by s), all other keys unchanged, and exactly two
fields are added when neither key pre-existed; with out truthy,
another operation, a non-mapping result, or both candidate fields
falsy, the result passes through unchanged.  (A truthy non-string
candidate raises instead: see the counterexample.) -/
theorem C3_enrichment :
    (∀ (op : DiscoveredOperation) (kvs : JObj) (args : List (String × JVal))
        (url : String) (s : String),
      op.tool_name = "payments_create_payments" →
      pyTruthy ((assocLookup args "out").getD (.bool false)) = false →
      pyOrJ (kvs.lookup "payment_request") (kvs.lookup "bolt11") = some (.str s) →
      s ≠ "" →
      ∃ r, enrichInvoice (.obj kvs) op args url = some (.obj r) ∧
        r.lookup "qr_code" =
          some (.str (rstripSlashes url ++ "/api/v1/qrcode/" ++ pyQuoteAll s)) ∧
        r.lookup "lightning_uri" = some (.str ("lightning:" ++ s)) ∧
        (∀ k, k ≠ "qr_code" → k ≠ "lightning_uri" → r.lookup k = kvs.lookup k) ∧
        (kvs.hasKey "qr_code" = false → kvs.hasKey "lightning_uri" = false →
          r.length = kvs.length + 2))
    ∧ (∀ (op : DiscoveredOperation) (result : JVal) (args : List (String × JVal))
        (url : String),
        op.tool_name ≠ "payments_create_payments" →
        enrichInvoice result op args url = some result)
    ∧ (∀ (op : DiscoveredOperation) (result : JVal) (args : List (String × JVal))
        (url : String),
        pyTruthy ((assocLookup args "out").getD (.bool false)) = true →
        enrichInvoice result op args url = some result)
    ∧ (∀ (op : DiscoveredOperation) (result : JVal) (args : List (String × JVal))
        (url : String),
        (∀ kvs, result ≠ .obj kvs) →
        enrichInvoice result op args url = some result)
    ∧ (∀ (op : DiscoveredOperation) (kvs : JObj) (args : List (String × JVal))
        (url : String) (v : JVal),
        pyOrJ (kvs.lookup "payment_request") (kvs.lookup "bolt11") = some v →
        pyTruthy v = false →
        enrichInvoice (.obj kvs) op args url = some (.obj kvs))
    ∧ (∀ (op : DiscoveredOperation) (kvs : JObj) (args : List (String × JVal))
        (url : String),
        pyOrJ (kvs.lookup "payment_request") (kvs.lookup "bolt11") = none →
        enrichInvoice (.obj kvs) op args url = some (.obj kvs)) := by
  refine ⟨?_, ?_, ?_, ?_, ?_, ?_⟩
  · intro op kvs args url s h1 h2 h3 h4
    refine ⟨(kvs.set "qr_code"
        (.str (rstripSlashes url ++ "/api/v1/qrcode/" ++ pyQuoteAll s))).set
        "lightning_uri" (.str ("lightning:" ++ s)), ?_, ?_, ?_, ?_, ?_⟩
    · simp only [enrichInvoice, h1, h2, h3]
      have hs : pyTruthy (.str s) = true := by simp [pyTruthy, h4]
      simp [hs]
    · simp [JObj.lookup_set]
    · simp [JObj.lookup_set]
    · intro k hk1 hk2
      have e1 : ¬ ("lightning_uri" = k) := fun h => hk2 h.symm
      have e2 : ¬ ("qr_code" = k) := fun h => hk1 h.symm
      simp [JObj.lookup_set, e1, e2]
    · intro h5 h6
      rw [JObj.length_set, JObj.hasKey_set, JObj.length_set]
      simp [h5, h6]
  · intro op result args url h
    simp [enrichInvoice, h]
  · intro op result args url h
    unfold enrichInvoice
    by_cases h1 : op.tool_name ≠ "payments_create_payments"
    · simp [h1]
    · simp [h1, h]
  · intro op result args url h
    unfold enrichInvoice
    by_cases h1 : op.tool_name ≠ "payments_create_payments"
    · simp [h1]
    · by_cases h2 : pyTruthy ((assocLookup args "out").getD (.bool false))
      · simp [h1, h2]
      · cases result with
        | obj kvs => exact absurd rfl (h kvs)
        | str s => simp [h1, h2]
        | int n => simp [h1, h2]
        | float q => simp [h1, h2]
        | bool b => simp [h1, h2]
        | null => simp [h1, h2]
        | arr xs => simp [h1, h2]
  · intro op kvs args url v h3 h4
    unfold enrichInvoice
    by_cases h1 : op.tool_name ≠ "payments_create_payments"
    · simp [h1]
    · by_cases h2 : pyTruthy ((assocLookup args "out").getD (.bool false))
      · simp [h1, h2]
      · simp [h1, h2, h3, h4]
  · intro op kvs args url h3
    unfold enrichInvoice
    by_cases h1 : op.tool_name ≠ "payments_create_payments"
    · simp [h1]
    · by_cases h2 : pyTruthy ((assocLookup args "out").getD (.bool false))
      · simp [h1, h2]
      · simp [h1, h2, h3]

/-- Witness for C3_enrichment: the spec's own scenario with base URL
https://x.test and payment_request lnbc1. -/
theorem C3_enrichment_witness :
    ∃ r, enrichInvoice (.obj (.cons "payment_request" (.str "lnbc1") .nil))
        ⟨"payments_create_payments", "POST", "/api/v1/payments", "", "", "Payments",
          [], none, [], false, none⟩
        [("out", .bool false)] "https://x.test" = some (.obj r) ∧
      r.lookup "qr_code" = some (.str ("https://x.test" ++ "/api/v1/qrcode/" ++ pyQuoteAll "lnbc1")) ∧
      r.lookup "lightning_uri" = some (.str ("lightning:" ++ "lnbc1")) := by
  obtain ⟨r, e1, e2, e3, -, -⟩ :=
    C3_enrichment.1
      ⟨"payments_create_payments", "POST", "/api/v1/payments", "", "", "Payments",
        [], none, [], false, none⟩
      (.cons "payment_request" (.str "lnbc1") .nil)
      [("out", .bool false)] "https://x.test" "lnbc1"
      rfl (by decide) (by decide) (by decide)
  exact ⟨r, e1, by rw [e2]; decide, e3⟩

/- ------------------------------------------------------------------
   C9: registry load count versus stored map size.
   ------------------------------------------------------------------ -/

theorem loadGo_snd_ge (cfg : RegistryConfig) (ops : List DiscoveredOperation) :
    ∀ (m : List (String × DiscoveredOperation)) (acc : Nat),
      acc ≤ (loadGo cfg ops m acc).2 := by
  induction ops with
  | nil => intro m acc; simp [loadGo]
  | cons op rest ih =>
    intro m acc
    unfold loadGo
    by_cases hs : shouldSkip cfg op
    · simp only [hs, if_pos]
      exact ih m acc
    · simp only [hs, Bool.false_eq_true, if_false]
      by_cases hbr : ((acc : Int) + 1 ≥ cfg.max_tools)
      · simp only [if_pos hbr]
        omega
      · simp only [if_neg hbr]
        have := ih (setAssoc m op.tool_name op) (acc + 1)
        omega

theorem loadGo_snd_lt (cfg : RegistryConfig) (ops : List DiscoveredOperation) :
    ∀ (m : List (String × DiscoveredOperation)) (acc : Nat),
      (acc : Int) < cfg.max_tools →
      (loadGo cfg ops m acc).2 =
        acc + min (ops.countP (fun op => ! shouldSkip cfg op))
          (cfg.max_tools.toNat - acc) := by
  induction ops with
  | nil =>
    intro m acc hacc
    simp only [loadGo, List.countP_nil]
    omega
  | cons op rest ih =>
    intro m acc hacc
    unfold loadGo
    by_cases hs : shouldSkip cfg op
    · simp only [hs, if_pos, List.countP_cons, hs]
      rw [ih m acc hacc]
      simp [hs]
    · simp only [hs, Bool.false_eq_true, if_false]
      rw [List.countP_cons]
      simp only [hs, Bool.not_false, if_pos]
      by_cases hbr : ((acc : Int) + 1 ≥ cfg.max_tools)
      · simp only [if_pos hbr]
        omega
      · simp only [if_neg hbr]
        rw [ih (setAssoc m op.tool_name op) (acc + 1) (by omega)]
        omega

theorem loadGo_snd_nonpos (cfg : RegistryConfig) (hmt : cfg.max_tools ≤ 0)
    (ops : List DiscoveredOperation) :
    ∀ (m : List (String × DiscoveredOperation)) (acc : Nat),
      (loadGo cfg ops m acc).2 =
        acc + min (ops.countP (fun op => ! shouldSkip cfg op)) 1 := by
  induction ops with
  | nil =>
    intro m acc
    simp [loadGo]
  | cons op rest ih =>
    intro m acc
    unfold loadGo
    by_cases hs : shouldSkip cfg op
    · simp only [hs, if_pos, List.countP_cons]
      rw [ih m acc]
      simp [hs]
    · simp only [hs, Bool.false_eq_true, if_false]
      rw [List.countP_cons]
      simp only [hs, Bool.not_false, if_pos]
      have hbr : ((acc : Int) + 1 ≥ cfg.max_tools) := by omega
      simp only [if_pos hbr]
      omega

theorem loadGo_fst_length (cfg : RegistryConfig) (ops : List DiscoveredOperation) :
    ∀ (m : List (String × DiscoveredOperation)) (acc : Nat),
      (loadGo cfg ops m acc).1.length ≤ m.length + ((loadGo cfg ops m acc).2 - acc) := by
  induction ops with
  | nil =>
    intro m acc
    simp [loadGo]
  | cons op rest ih =>
    intro m acc
    unfold loadGo
    by_cases hs : shouldSkip cfg op
    · simp only [hs, if_pos]
      exact ih m acc
    · simp only [hs, Bool.false_eq_true, if_false]
      by_cases hbr : ((acc : Int) + 1 ≥ cfg.max_tools)
      · simp only [if_pos hbr]
        have := setAssoc_length_le m op.tool_name op
        omega
      · simp only [if_neg hbr]
        have h1 := ih (setAssoc m op.tool_name op) (acc + 1)
        have h2 := setAssoc_length_le m op.tool_name op
        have h3 := loadGo_snd_ge cfg rest (setAssoc m op.tool_name op) (acc + 1)
        omega

/-- Claim C9 (amended): the count returned by load is the number of
operations accepted by the filter capped at max(1, max_tools) — the
cap is checked only after an acceptance, so a non-positive max_tools
still admits one operation — while the stored map holds at most that
many entries; with two accepted operations sharing a tool_name the
later one overwrites the earlier, so the map stays strictly smaller
than the returned count. -/
theorem C9_load_count_and_store (cfg : RegistryConfig)
    (ops : List DiscoveredOperation) :
    ((load cfg ops).2 =
      min (acceptCount cfg ops) (Int.toNat (max cfg.max_tools 1)))
    ∧ ((load cfg ops).1.length ≤ (load cfg ops).2)
    ∧ ((load {}
          [⟨"a", "GET", "/api/v1/x", "s1", "", "x", [], none, [], true, none⟩,
           ⟨"a", "GET", "/api/v1/x", "s2", "", "x", [], none, [], true, none⟩]).2 = 2
        ∧ (load {}
          [⟨"a", "GET", "/api/v1/x", "s1", "", "x", [], none, [], true, none⟩,
           ⟨"a", "GET", "/api/v1/x", "s2", "", "x", [], none, [], true, none⟩]).1.length = 1
        ∧ assocLookup (load {}
          [⟨"a", "GET", "/api/v1/x", "s1", "", "x", [], none, [], true, none⟩,
           ⟨"a", "GET", "/api/v1/x", "s2", "", "x", [], none, [], true, none⟩]).1 "a" =
            some ⟨"a", "GET", "/api/v1/x", "s2", "", "x", [], none, [], true, none⟩) := by
  refine ⟨?_, ?_, by decide, by decide, by decide⟩
  · by_cases hmt : (0 : Int) < cfg.max_tools
    · rw [show load cfg ops = loadGo cfg ops [] 0 from rfl,
        loadGo_snd_lt cfg ops [] 0 (by exact_mod_cast hmt)]
      unfold acceptCount
      omega
    · rw [show load cfg ops = loadGo cfg ops [] 0 from rfl,
        loadGo_snd_nonpos cfg (by omega) ops [] 0]
      unfold acceptCount
      omega
  · have := loadGo_fst_length cfg ops [] 0
    simpa [load] using this

/-- Claim C9 (counterexample): the claim caps the returned count at
config.max_tools itself; with max_tools = 0 and two acceptable
operations the code still accepts one (the cap is checked after the
first acceptance), so the count is 1, not min(2, 0) = 0. -/
theorem C9_counterexample :
    (load { max_tools := 0 }
      [⟨"a", "GET", "/api/v1/x", "", "", "x", [], none, [], true, none⟩,
       ⟨"b", "GET", "/api/v1/x", "", "", "x", [], none, [], true, none⟩]).2 = 1
    ∧ acceptCount { max_tools := 0 }
      [⟨"a", "GET", "/api/v1/x", "", "", "x", [], none, [], true, none⟩,
       ⟨"b", "GET", "/api/v1/x", "", "", "x", [], none, [], true, none⟩] = 2
    ∧ (load { max_tools := 0 }
      [⟨"a", "GET", "/api/v1/x", "", "", "x", [], none, [], true, none⟩,
       ⟨"b", "GET", "/api/v1/x", "", "", "x", [], none, [], true, none⟩]).2 ≠
        min 2 (Int.toNat (0 : Int)) := by
  refine ⟨by decide, by decide, by decide⟩

/- ------------------------------------------------------------------
   C10: body properties overwrite parameter schemas.
   ------------------------------------------------------------------ -/

theorem buildParamsGo_req_count (n : String) :
    ∀ (ps : List JObj) (props : JObj) (req : List String) (props' : JObj)
      (req' : List String),
      buildParamsGo ps props req = some (props', req') →
      req'.count n = req.count n + ps.countP (paramReqPred n) := by
  intro ps
  induction ps with
  | nil =>
    intro props req props' req' h
    have h' : (props, req) = (props', req') := by simpa [buildParamsGo] using h
    obtain ⟨h1, h2⟩ := Prod.ext_iff.mp h'
    subst h2
    simp
  | cons p rest ih =>
    intro props req props' req' h
    rw [List.countP_cons]
    unfold buildParamsGo at h
    split at h
    case h_2 => simp at h
    case h_1 nm heq =>
      by_cases hh : nm ∈ hiddenParams
      · rw [if_pos hh] at h
        have hpred : paramReqPred n p = false := by
          unfold paramReqPred
          by_cases he : nm = n
          · subst he
            simp [hh]
          · simp [heq, he]
        rw [hpred]
        simpa using ih props req props' req' h
      · rw [if_neg hh] at h
        by_cases hc : p.lookup "in" = some (.str "cookie")
        · rw [if_pos hc] at h
          have hpred : paramReqPred n p = false := by
            unfold paramReqPred
            simp [hc]
          rw [hpred]
          simpa using ih props req props' req' h
        · rw [if_neg hc] at h
          split at h
          next m hs =>
            have hrec := ih _ _ _ _ h
            by_cases he : nm = n
            · subst he
              by_cases hr : pyTruthy (p.getD "required" (.bool false))
              · rw [if_pos hr] at hrec
                have hpred : paramReqPred nm p = true := by
                  unfold paramReqPred
                  simp [heq, hh, hc, hr]
                rw [hpred, hrec]
                simp [List.count_append]
                omega
              · rw [if_neg hr] at hrec
                have hpred : paramReqPred nm p = false := by
                  unfold paramReqPred
                  simp [hr]
                rw [hpred, hrec]
                simp
            · have hpred : paramReqPred n p = false := by
                unfold paramReqPred
                simp [heq, he]
              rw [hpred]
              by_cases hr : pyTruthy (p.getD "required" (.bool false))
              · rw [if_pos hr] at hrec
                rw [hrec]
                simp [List.count_append, List.count_cons, he]
              · rw [if_neg hr] at hrec
                rw [hrec]
                simp
          next => simp at h

theorem JObj.mem_keys_of_lookup (bp : JObj) (n : String) (v : JVal)
    (h : bp.lookup n = some v) : n ∈ bp.keys := by
  induction bp using jobjInduction with
  | nil => simp [JObj.lookup] at h
  | cons k v0 t ih =>
    by_cases hk : k = n
    · simp [JObj.keys, hk]
    · simp only [JObj.lookup, if_neg hk] at h
      simp [JObj.keys, ih h]

theorem buildBodyGo_props_preserve (bodyReq : JVal) (bp : JObj) :
    ∀ (props : JObj) (req : List String) (props' : JObj) (req' : List String),
      buildBodyGo bodyReq bp props req = some (props', req') →
      ∀ n, n ∉ bp.keys → props'.lookup n = props.lookup n := by
  induction bp using jobjInduction with
  | nil =>
    intro props req props' req' h n hn
    have h' : (props, req) = (props', req') := by simpa [buildBodyGo] using h
    injection h' with h1 h2
    rw [← h1]
  | cons k v t ih =>
    intro props req props' req' h n hn
    have hk : ¬ (k = n) := by
      intro hkn
      exact hn (by simp [JObj.keys, hkn])
    have hnt : n ∉ t.keys := by
      intro hmem
      exact hn (by simp [JObj.keys, hmem])
    unfold buildBodyGo at h
    split at h
    next m =>
      split at h
      next b hb =>
        rw [ih _ _ _ _ h n hnt, JObj.lookup_set]
        simp [hk]
      next => simp at h
    next hne => simp at h

theorem buildBodyGo_props_lookup (bodyReq : JVal) (bp : JObj) :
    ∀ (props : JObj) (req : List String) (props' : JObj) (req' : List String)
      (n : String) (m : JObj),
      bp.keys.Nodup →
      buildBodyGo bodyReq bp props req = some (props', req') →
      bp.lookup n = some (.obj m) →
      props'.lookup n = some (.obj (extractProp m)) := by
  induction bp using jobjInduction with
  | nil =>
    intro props req props' req' n m _ h hl
    simp [JObj.lookup] at hl
  | cons k v t ih =>
    intro props req props' req' n m hnd h hl
    have hnd' := List.nodup_cons.mp (by simpa [JObj.keys] using hnd)
    unfold buildBodyGo at h
    split at h
    next m0 =>
      split at h
      next b hb =>
        by_cases hk : k = n
        · subst hk
          have hm : JVal.obj m0 = JVal.obj m := by simpa [JObj.lookup] using hl
          have hm' : m0 = m := by
            injection hm
          have hpres := buildBodyGo_props_preserve bodyReq t _ _ _ _ h k hnd'.1
          rw [hpres, JObj.lookup_set]
          simp [hm']
        · have hl' : t.lookup n = some (.obj m) := by
            simpa [JObj.lookup, hk] using hl
          exact ih _ _ _ _ n m hnd'.2 h hl'
      next => simp at h
    next hne => simp at h

theorem buildBodyGo_req_count (bodyReq : JVal) (n : String) (bp : JObj) :
    ∀ (props : JObj) (req : List String) (props' : JObj) (req' : List String),
      buildBodyGo bodyReq bp props req = some (props', req') →
      req'.count n = req.count n + objCountKeyIn bodyReq n bp := by
  induction bp using jobjInduction with
  | nil =>
    intro props req props' req' h
    have h' : (props, req) = (props', req') := by simpa [buildBodyGo] using h
    injection h' with h1 h2
    rw [← h2]
    simp [objCountKeyIn]
  | cons k v t ih =>
    intro props req props' req' h
    unfold buildBodyGo at h
    split at h
    next m0 =>
      split at h
      next b hb =>
        have hrec := ih _ _ _ _ h
        unfold objCountKeyIn
        by_cases hk : k = n
        · subst hk
          cases b with
          | false =>
            have hcond : ¬ (k = k ∧ pyIn (.str k) bodyReq = some true) := by
              intro hc
              rw [hb] at hc
              exact absurd hc.2 (by simp)
            rw [if_neg hcond]
            simpa using hrec
          | true =>
            have hcond : (k = k ∧ pyIn (.str k) bodyReq = some true) := ⟨rfl, hb⟩
            rw [if_pos hcond]
            simp only [if_pos rfl] at hrec
            rw [hrec]
            simp [List.count_append]
            omega
        · have hcond : ¬ (k = n ∧ pyIn (.str k) bodyReq = some true) := by
            intro hc
            exact hk hc.1
          rw [if_neg hcond]
          cases b with
          | false =>
            simpa using hrec
          | true =>
            simp only [if_pos rfl] at hrec
            rw [hrec]
            simp [List.count_append, List.count_cons, hk]
      next => simp at h
    next hne => simp at h

theorem objCountKeyIn_zero (bodyReq : JVal) (n : String) (bp : JObj)
    (hn : n ∉ bp.keys) : objCountKeyIn bodyReq n bp = 0 := by
  induction bp using jobjInduction with
  | nil => simp [objCountKeyIn]
  | cons k v t ih =>
    have hk : ¬ (k = n) := by
      intro hkn
      exact hn (by simp [JObj.keys, hkn])
    have hnt : n ∉ t.keys := by
      intro hmem
      exact hn (by simp [JObj.keys, hmem])
    unfold objCountKeyIn
    rw [if_neg (by intro hc; exact hk hc.1)]
    simp [ih hnt]

theorem objCountKeyIn_one (bodyReq : JVal) (n : String) (bp : JObj) (v : JVal) :
    bp.keys.Nodup → bp.lookup n = some v →
    pyIn (.str n) bodyReq = some true →
    objCountKeyIn bodyReq n bp = 1 := by
  induction bp using jobjInduction with
  | nil => intro _ hl _; simp [JObj.lookup] at hl
  | cons k v0 t ih =>
    intro hnd hl hin
    have hnd' := List.nodup_cons.mp (by simpa [JObj.keys] using hnd)
    unfold objCountKeyIn
    by_cases hk : k = n
    · subst hk
      rw [if_pos ⟨rfl, hin⟩]
      rw [objCountKeyIn_zero bodyReq k t hnd'.1]
    · rw [if_neg (by intro hc; exact hk hc.1)]
      have hl' : t.lookup n = some v := by simpa [JObj.lookup, hk] using hl
      simp [ih hnd'.2 hl' hin]

theorem jarrCount_listToJArr (req : List String) (n : String) :
    jarrCount (.str n) (listToJArr (req.map JVal.str)) = req.count n := by
  induction req with
  | nil => simp [listToJArr, jarrCount]
  | cons r t ih =>
    simp only [List.map_cons, listToJArr, jarrCount, ih, List.count_cons]
    by_cases h : r = n
    · simp [h, Nat.add_comm]
    · have h' : ¬ (JVal.str n = JVal.str r) := by
        intro hc
        injection hc with hc
        exact h hc.symm
      simp [h, h']

/-- Claim C10: when a request-body property shares its name with a
declared non-hidden, non-cookie parameter, the built input schema's
properties entry for that name is the sanitized body property (the
body silently overwrites the parameter's schema); and when both the
parameter and the body mark the name required, the name appears twice
in the resulting required list. -/
theorem C10_body_overwrites_param (op : DiscoveredOperation) (body bp : JObj)
    (n : String) (m : JObj) (res : JObj)
    (hbody : op.request_body_schema = some body)
    (hprops : body.getD "properties" (.obj .nil) = .obj bp)
    (hnd : bp.keys.Nodup)
    (hlook : bp.lookup n = some (.obj m))
    (hres : buildInputSchema op = some res) :
    (∃ P, res.lookup "properties" = some (.obj P) ∧
      P.lookup n = some (.obj (extractProp m)))
    ∧ (op.parameters.countP (paramReqPred n) = 1 →
        pyIn (.str n) ((body.lookup "required").getD (.arr .nil)) = some true →
        ∃ R, res.lookup "required" = some (.arr R) ∧ jarrCount (.str n) R = 2) := by
  unfold buildInputSchema at hres
  cases hp0 : buildParamsGo op.parameters .nil [] with
  | none => rw [hp0] at hres; simp at hres
  | some pr0 =>
    obtain ⟨props0, req0⟩ := pr0
    simp only [hp0, hbody, hprops] at hres
    cases hbg : buildBodyGo ((body.lookup "required").getD (.arr .nil)) bp props0 req0 with
    | none =>
      simp only [hbg] at hres
      exact Option.noConfusion hres
    | some pr =>
      obtain ⟨props, req⟩ := pr
      simp only [hbg] at hres
      have hPn : props.lookup n = some (.obj (extractProp m)) :=
        buildBodyGo_props_lookup _ bp props0 req0 props req n m hnd hbg hlook
      constructor
      · refine ⟨props, ?_, hPn⟩
        by_cases hre : req.isEmpty
        · rw [if_pos hre] at hres
          injection hres with hres
          rw [← hres]
          simp [JObj.lookup]
        · rw [if_neg hre] at hres
          injection hres with hres
          rw [← hres]
          simp [JObj.lookup]
      · intro hcount hin
        have h1 := buildParamsGo_req_count n op.parameters .nil [] props0 req0 hp0
        have h2 := buildBodyGo_req_count ((body.lookup "required").getD (.arr .nil)) n
          bp props0 req0 props req hbg
        have h3 := objCountKeyIn_one ((body.lookup "required").getD (.arr .nil)) n bp
          (.obj m) hnd hlook hin
        have hc2 : req.count n = 2 := by
          rw [h2, h1, hcount, h3]
          simp
        have hre : req.isEmpty = false := by
          cases req with
          | nil => simp [List.count_nil] at hc2
          | cons a t => simp [List.isEmpty]
        rw [hre] at hres
        simp only [Bool.false_eq_true, if_false] at hres
        injection hres with hres
        refine ⟨listToJArr (req.map JVal.str), ?_, ?_⟩
        · rw [← hres]
          simp [JObj.lookup]
        · rw [jarrCount_listToJArr, hc2]

/-- Witness for C10_body_overwrites_param: one query parameter x
(required, integer) and a body property x (required, string); the
built schema carries the body's string schema for x and lists x twice
in required. -/
theorem C10_body_overwrites_param_witness :
    ∃ res, buildInputSchema
        ⟨"t", "POST", "/api/v1/x", "", "", "x",
          [.cons "name" (.str "x") (.cons "in" (.str "query")
            (.cons "required" (.bool true)
              (.cons "schema" (.obj (.cons "type" (.str "integer") .nil)) .nil)))],
          some (.cons "properties"
              (.obj (.cons "x" (.obj (.cons "type" (.str "string") .nil)) .nil))
              (.cons "required" (.arr (.cons (.str "x") .nil)) .nil)),
          [], false, none⟩ = some res ∧
      (∃ P, res.lookup "properties" = some (.obj P) ∧
        P.lookup "x" = some (.obj (extractProp (.cons "type" (.str "string") .nil)))) ∧
      (∃ R, res.lookup "required" = some (.arr R) ∧ jarrCount (.str "x") R = 2) := by
  cases hres : buildInputSchema
      ⟨"t", "POST", "/api/v1/x", "", "", "x",
        [.cons "name" (.str "x") (.cons "in" (.str "query")
          (.cons "required" (.bool true)
            (.cons "schema" (.obj (.cons "type" (.str "integer") .nil)) .nil)))],
        some (.cons "properties"
            (.obj (.cons "x" (.obj (.cons "type" (.str "string") .nil)) .nil))
            (.cons "required" (.arr (.cons (.str "x") .nil)) .nil)),
        [], false, none⟩ with
  | none => exact absurd hres (by decide)
  | some res =>
    have hmain := C10_body_overwrites_param
      ⟨"t", "POST", "/api/v1/x", "", "", "x",
        [.cons "name" (.str "x") (.cons "in" (.str "query")
          (.cons "required" (.bool true)
            (.cons "schema" (.obj (.cons "type" (.str "integer") .nil)) .nil)))],
        some (.cons "properties"
            (.obj (.cons "x" (.obj (.cons "type" (.str "string") .nil)) .nil))
            (.cons "required" (.arr (.cons (.str "x") .nil)) .nil)),
        [], false, none⟩
      (.cons "properties"
          (.obj (.cons "x" (.obj (.cons "type" (.str "string") .nil)) .nil))
          (.cons "required" (.arr (.cons (.str "x") .nil)) .nil))
      (.cons "x" (.obj (.cons "type" (.str "string") .nil)) .nil)
      "x" (.cons "type" (.str "string") .nil) res
      rfl (by decide) (by decide) (by decide) hres
    exact ⟨res, rfl, hmain.1, hmain.2 (by decide) (by decide)⟩

/- ------------------------------------------------------------------
   C5: default type for leaves.
   ------------------------------------------------------------------ -/

/-- Claim C5 (corrected, counterexample): the claim says every leaf,
nested ones included, with no type-bearing keyword gets type string,
and every fully-filtered leaf becomes exactly the dict with type
string; but the nested empty leaf under items survives sanitization as
the empty dict, with no type-bearing keyword at all. -/
theorem C5_counterexample :
    extractProp (.cons "items" (.obj .nil) .nil) =
      .cons "items" (.obj .nil) (.cons "type" (.str "string") .nil) ∧
    (JObj.nil.hasKey "type" = false ∧ JObj.nil.hasKey "anyOf" = false ∧
      JObj.nil.hasKey "oneOf" = false ∧ JObj.nil.hasKey "allOf" = false ∧
      JObj.nil.hasKey "$ref" = false ∧ JObj.nil.hasKey "enum" = false) ∧
    JObj.nil ≠ .cons "type" (.str "string") .nil := by
  refine ⟨by decide, by decide, by decide⟩

/-- The default-type step guarantees: its output is empty, or carries
a type-bearing keyword, or carries neither enum nor description. -/
theorem tailDefault_post (r : JObj) :
    tailDefault r = .nil ∨ hasTypeBearing (tailDefault r) = true ∨
      ((tailDefault r).hasKey "enum" = false ∧
        (tailDefault r).hasKey "description" = false) := by
  unfold tailDefault
  by_cases h1 : r.isEmpty
  · have hnil : r = .nil := by
      cases r with
      | nil => rfl
      | cons k v t => simp [JObj.isEmpty] at h1
    subst hnil
    left
    decide
  · by_cases h2 : hasTypeBearing r
    · simp only [h1, h2]
      right; left
      simp [h2]
    · by_cases h3 : r.hasKey "enum" || r.hasKey "description"
      · simp only [h1, h2, h3]
        right; left
        have : (r.set "type" (.str "string")).hasKey "type" = true := by
          rw [JObj.hasKey_set]
          simp
        simp only [Bool.not_false, Bool.and_self, if_pos]
        unfold hasTypeBearing
        simp [this]
      · simp only [h1, h2, h3]
        right; right
        simp only [Bool.or_eq_true, not_or] at h3
        simp only [Bool.not_false, Bool.and_self, if_pos]
        constructor
        · exact Bool.not_eq_true _ ▸ (by simpa using h3.1)
        · exact Bool.not_eq_true _ ▸ (by simpa using h3.2)

/-- The final default-type step of _extract_prop always leaves one of
the six type-bearing keywords in place. -/
theorem setType_or (R : JObj) :
    ((if ! (R.hasKey "type" || R.hasKey "anyOf" || R.hasKey "oneOf" ||
        R.hasKey "allOf" || R.hasKey "enum" || R.hasKey "$ref") then
          R.set "type" (.str "string")
        else R).hasKey "type" = true ∨
      (if ! (R.hasKey "type" || R.hasKey "anyOf" || R.hasKey "oneOf" ||
        R.hasKey "allOf" || R.hasKey "enum" || R.hasKey "$ref") then
          R.set "type" (.str "string")
        else R).hasKey "anyOf" = true ∨
      (if ! (R.hasKey "type" || R.hasKey "anyOf" || R.hasKey "oneOf" ||
        R.hasKey "allOf" || R.hasKey "enum" || R.hasKey "$ref") then
          R.set "type" (.str "string")
        else R).hasKey "oneOf" = true ∨
      (if ! (R.hasKey "type" || R.hasKey "anyOf" || R.hasKey "oneOf" ||
        R.hasKey "allOf" || R.hasKey "enum" || R.hasKey "$ref") then
          R.set "type" (.str "string")
        else R).hasKey "allOf" = true ∨
      (if ! (R.hasKey "type" || R.hasKey "anyOf" || R.hasKey "oneOf" ||
        R.hasKey "allOf" || R.hasKey "enum" || R.hasKey "$ref") then
          R.set "type" (.str "string")
        else R).hasKey "enum" = true ∨
      (if ! (R.hasKey "type" || R.hasKey "anyOf" || R.hasKey "oneOf" ||
        R.hasKey "allOf" || R.hasKey "enum" || R.hasKey "$ref") then
          R.set "type" (.str "string")
        else R).hasKey "$ref" = true) := by
  cases hbig : (R.hasKey "type" || R.hasKey "anyOf" || R.hasKey "oneOf" ||
      R.hasKey "allOf" || R.hasKey "enum" || R.hasKey "$ref") with
  | true =>
    simp only [Bool.not_true, Bool.false_eq_true, if_false]
    simp only [Bool.or_eq_true] at hbig
    tauto
  | false =>
    simp only [Bool.not_false, if_pos]
    left
    rw [JObj.hasKey_set]
    simp

/-- Claim C5 (amended): _extract_prop always leaves a top-level leaf
with one of the six type-bearing keywords (adding type string when
none survives, the fully-filtered case included); inside
_sanitize_schema, however, type is defaulted only when the filtered
leaf is non-empty and still carries an enum or a description: every
sanitizer output is empty, or type-bearing, or free of both enum and
description, and a fully-filtered nested leaf stays the empty dict
rather than becoming the dict with type string. -/
theorem C5_default_type (s : JObj) (m : JObj) :
    ((extractProp s).hasKey "type" = true ∨ (extractProp s).hasKey "anyOf" = true ∨
      (extractProp s).hasKey "oneOf" = true ∨ (extractProp s).hasKey "allOf" = true ∨
      (extractProp s).hasKey "enum" = true ∨ (extractProp s).hasKey "$ref" = true)
    ∧ (sanitizeSchema m = .nil ∨ hasTypeBearing (sanitizeSchema m) = true ∨
        ((sanitizeSchema m).hasKey "enum" = false ∧
          (sanitizeSchema m).hasKey "description" = false))
    ∧ sanitizeSchema .nil = .nil
    ∧ sanitizeSchema (.cons "items" (.obj .nil) .nil) =
        .cons "items" (.obj .nil) .nil := by
  refine ⟨?_, ?_, by decide, by decide⟩
  · exact setType_or (sanitizeSchema
      (if ! s.hasKey "description" && s.hasKey "title" then
        match s.lookup "title" with
        | some tv => (s.erase "title").set "description" tv
        | none => s
      else s))
  · have h := tailDefault_post (nullRewrite
      (pyTruthy (m.getD "nullable" (.bool false))) (sanEntries m))
    simpa [sanitizeSchema, sanPost] using h

/- ------------------------------------------------------------------
   C1: tool-name de-duplication.
   ------------------------------------------------------------------ -/

theorem natStrGo_fuel : ∀ (n f1 f2 : Nat), n < f1 → n < f2 →
    natStrGo f1 n = natStrGo f2 n := by
  intro n
  induction n using Nat.strong_induction_on with
  | _ n ih =>
    intro f1 f2 h1 h2
    cases f1 with
    | zero => omega
    | succ f1' =>
      cases f2 with
      | zero => omega
      | succ f2' =>
        unfold natStrGo
        by_cases hn : n < 10
        · simp [hn]
        · rw [if_neg hn, if_neg hn]
          have hd : n / 10 < n := Nat.div_lt_self (by omega) (by omega)
          rw [ih (n / 10) hd f1' f2' (by omega) (by omega)]

theorem natStr_eq (n : Nat) :
    natStr n = if n < 10 then [digitChar n]
      else natStr (n / 10) ++ [digitChar (n % 10)] := by
  unfold natStr
  by_cases hn : n < 10
  · simp [natStrGo, hn]
  · rw [if_neg hn]
    have h1 : natStrGo (n + 1) n =
        if n < 10 then [digitChar n]
        else natStrGo n (n / 10) ++ [digitChar (n % 10)] := rfl
    rw [h1, if_neg hn]
    have hd : n / 10 < n := Nat.div_lt_self (by omega) (by omega)
    rw [natStrGo_fuel (n / 10) n (n / 10 + 1) hd (by omega)]

theorem digitChar_toNat (d : Nat) (h : d < 10) : (digitChar d).toNat = 48 + d := by
  unfold digitChar
  interval_cases d <;> decide

theorem natVal_natStr (n : Nat) : natVal (natStr n) = n := by
  induction n using Nat.strong_induction_on with
  | _ n ih =>
    rw [natStr_eq]
    by_cases hn : n < 10
    · rw [if_pos hn]
      unfold natVal
      simp [List.foldl, digitChar_toNat n hn]
    · rw [if_neg hn]
      have hd : n / 10 < n := Nat.div_lt_self (by omega) (by omega)
      unfold natVal
      rw [List.foldl_append]
      have hih := ih (n / 10) hd
      unfold natVal at hih
      rw [hih]
      simp only [List.foldl]
      rw [digitChar_toNat (n % 10) (Nat.mod_lt n (by omega))]
      omega

theorem natStr_inj (a b : Nat) (h : natStr a = natStr b) : a = b := by
  have := natVal_natStr a
  rw [h, natVal_natStr b] at this
  omega

theorem natStr_digits (n : Nat) : ∀ c ∈ natStr n, c.isDigit = true := by
  induction n using Nat.strong_induction_on with
  | _ n ih =>
    intro c hc
    rw [natStr_eq] at hc
    by_cases hn : n < 10
    · rw [if_pos hn] at hc
      simp only [List.mem_singleton] at hc
      subst hc
      unfold digitChar
      interval_cases n <;> decide
    · rw [if_neg hn] at hc
      have hd : n / 10 < n := Nat.div_lt_self (by omega) (by omega)
      rcases List.mem_append.mp hc with h | h
      · exact ih (n / 10) hd c h
      · simp only [List.mem_singleton] at h
        subst h
        unfold digitChar
        have : n % 10 < 10 := Nat.mod_lt n (by omega)
        interval_cases hh : (n % 10) <;> decide

theorem natStr_ne_nil (n : Nat) : natStr n ≠ [] := by
  rw [natStr_eq]
  by_cases hn : n < 10
  · simp [hn]
  · simp [hn]

theorem sepSplit (p : Char → Bool) :
    ∀ (a b ta tb : List Char) (x y : Char),
      (∀ c ∈ a, p c = true) → (∀ c ∈ b, p c = true) →
      p x = false → p y = false →
      a ++ x :: ta = b ++ y :: tb → a = b ∧ x = y ∧ ta = tb := by
  intro a
  induction a with
  | nil =>
    intro b ta tb x y _ hb hx hy h
    cases b with
    | nil =>
      simp only [List.nil_append] at h
      injection h with h1 h2
      exact ⟨rfl, h1, h2⟩
    | cons c bs =>
      simp only [List.nil_append, List.cons_append] at h
      injection h with h1 h2
      subst h1
      have := hb x (by simp)
      rw [this] at hx
      exact absurd hx (by simp)
  | cons c as ih =>
    intro b ta tb x y ha hb hx hy h
    cases b with
    | nil =>
      simp only [List.cons_append, List.nil_append] at h
      injection h with h1 h2
      subst h1
      have := ha c (by simp)
      rw [this] at hy
      exact absurd hy (by simp)
    | cons c' bs =>
      simp only [List.cons_append] at h
      injection h with h1 h2
      subst h1
      obtain ⟨e1, e2, e3⟩ := ih bs ta tb x y
        (fun d hd => ha d (by simp [hd])) (fun d hd => hb d (by simp [hd])) hx hy h2
      exact ⟨by rw [e1], e2, e3⟩

theorem revUDAux_digits_underscore :
    ∀ (ds : List Char) (t : List Char), (∀ c ∈ ds, c.isDigit = true) →
      revUDAux (ds ++ '_' :: t) = true := by
  intro ds
  induction ds with
  | nil =>
    intro t _
    simp [revUDAux]
  | cons c rest ih =>
    intro t hds
    have hc : c.isDigit = true := hds c (by simp)
    simp only [List.cons_append, revUDAux, hc, if_pos]
    exact ih t (fun d hd => hds d (by simp [hd]))

theorem endsUD_suffixed (r : String) (k : Nat) :
    endsUnderscoreDigits (r ++ "_" ++ String.mk (natStr k)) = true := by
  unfold endsUnderscoreDigits
  have hdata : (r ++ "_" ++ String.mk (natStr k)).data =
      r.data ++ '_' :: natStr k := by
    rw [String.data_append, String.data_append]
    show r.data ++ ['_'] ++ natStr k = _
    simp
  rw [hdata]
  rw [List.reverse_append]
  have : ('_' :: natStr k).reverse = (natStr k).reverse ++ ['_'] := by
    simp
  rw [this, List.append_assoc]
  cases hrev : (natStr k).reverse with
  | nil =>
    exact absurd (List.reverse_eq_nil_iff.mp hrev) (natStr_ne_nil k)
  | cons c rest =>
    have hcmem : c ∈ natStr k := by
      have : c ∈ (natStr k).reverse := by rw [hrev]; simp
      simpa using this
    have hcd : c.isDigit = true := natStr_digits k c hcmem
    simp only [List.cons_append, hcd, Bool.true_and]
    have hrestmem : ∀ d ∈ rest, d.isDigit = true := by
      intro d hd
      have : d ∈ (natStr k).reverse := by rw [hrev]; simp [hd]
      exact natStr_digits k d (by simpa using this)
    have := revUDAux_digits_underscore rest (r.data.reverse) hrestmem
    exact this

theorem mkToolName_inj (r r' : String) (c c' : Nat)
    (hr : endsUnderscoreDigits r = false) (hr' : endsUnderscoreDigits r' = false)
    (h : mkToolName c r = mkToolName c' r') : r = r' ∧ c = c' := by
  unfold mkToolName at h
  by_cases h0 : c = 0
  · by_cases h0' : c' = 0
    · rw [if_pos h0, if_pos h0'] at h
      exact ⟨h, by omega⟩
    · rw [if_pos h0, if_neg h0'] at h
      rw [h] at hr
      rw [endsUD_suffixed] at hr
      exact absurd hr (by simp)
  · by_cases h0' : c' = 0
    · rw [if_neg h0, if_pos h0'] at h
      rw [← h] at hr'
      rw [endsUD_suffixed] at hr'
      exact absurd hr' (by simp)
    · rw [if_neg h0, if_neg h0'] at h
      have hdata : r.data ++ '_' :: natStr (c + 1) =
          r'.data ++ '_' :: natStr (c' + 1) := by
        have := congrArg String.data h
        rw [String.data_append, String.data_append, String.data_append,
          String.data_append] at this
        simpa using this
      have hrev := congrArg List.reverse hdata
      rw [List.reverse_append, List.reverse_append] at hrev
      have e1 : ('_' :: natStr (c + 1)).reverse =
          (natStr (c + 1)).reverse ++ '_' :: [] := by simp
      have e2 : ('_' :: natStr (c' + 1)).reverse =
          (natStr (c' + 1)).reverse ++ '_' :: [] := by simp
      rw [e1, e2, List.append_assoc, List.append_assoc] at hrev
      simp only [List.cons_append, List.nil_append] at hrev
      obtain ⟨d1, -, d3⟩ := sepSplit Char.isDigit
        (natStr (c + 1)).reverse (natStr (c' + 1)).reverse
        r.data.reverse r'.data.reverse '_' '_'
        (fun d hd => natStr_digits (c + 1) d (by simpa using hd))
        (fun d hd => natStr_digits (c' + 1) d (by simpa using hd))
        (by decide) (by decide) hrev
      have hc : c = c' := by
        have := natStr_inj (c + 1) (c' + 1) (by
          have := congrArg List.reverse d1
          simpa using this)
        omega
      have hrr : r = r' := by
        apply String.ext
        have := congrArg List.reverse d3
        simpa using this
      exact ⟨hrr, hc⟩

theorem nameLoop_eq_namesSpec :
    ∀ (rs pre : List String) (seen : List (String × Nat)),
      (∀ r, assocLookup seen r =
        if pre.count r = 0 then none else some (pre.count r)) →
      nameLoop seen rs = namesSpec pre rs := by
  intro rs
  induction rs with
  | nil => intro pre seen _; rfl
  | cons r rs ih =>
    intro pre seen hspec
    have hlook := hspec r
    have hstep : ∀ (c : Nat),
        (∀ r', assocLookup (setAssoc seen r c) r' =
          if (pre ++ [r]).count r' = 0 then none
          else some ((pre ++ [r]).count r')) ↔
        (∀ r', (if r = r' then some c else assocLookup seen r') =
          if (pre ++ [r]).count r' = 0 then none
          else some ((pre ++ [r]).count r')) := by
      intro c
      constructor
      · intro h r'
        rw [← assocLookup_setAssoc seen r c r']
        exact h r'
      · intro h r'
        rw [assocLookup_setAssoc seen r c r']
        exact h r'
    by_cases hc : pre.count r = 0
    · rw [if_pos hc] at hlook
      simp only [nameLoop, namesSpec, hlook]
      have hname : mkToolName (pre.count r) r = r := by
        simp [mkToolName, hc]
      rw [hname]
      have hspec' : ∀ r', assocLookup (setAssoc seen r 1) r' =
          if (pre ++ [r]).count r' = 0 then none
          else some ((pre ++ [r]).count r') := by
        intro r'
        rw [assocLookup_setAssoc]
        by_cases he : r = r'
        · subst he
          have hcnt : (pre ++ [r]).count r = pre.count r + 1 := by
            simp [List.count_append]
          rw [hcnt, hc]
          simp
        · have hcnt : (pre ++ [r]).count r' = pre.count r' := by
            have : ([r].count r') = 0 := by
              simp [List.count_cons, he]
            simp [List.count_append, this]
          rw [hcnt, if_neg he]
          exact hspec r'
      rw [ih (pre ++ [r]) (setAssoc seen r 1) hspec']
    · rw [if_neg hc] at hlook
      simp only [nameLoop, namesSpec, hlook]
      have hname : mkToolName (pre.count r) r =
          r ++ "_" ++ String.mk (natStr (pre.count r + 1)) := by
        simp [mkToolName, hc]
      rw [hname]
      have hspec' : ∀ r', assocLookup (setAssoc seen r (pre.count r + 1)) r' =
          if (pre ++ [r]).count r' = 0 then none
          else some ((pre ++ [r]).count r') := by
        intro r'
        rw [assocLookup_setAssoc]
        by_cases he : r = r'
        · subst he
          have hcnt : (pre ++ [r]).count r = pre.count r + 1 := by
            simp [List.count_append]
          rw [hcnt]
          simp
        · have hcnt : (pre ++ [r]).count r' = pre.count r' := by
            have : ([r].count r') = 0 := by
              simp [List.count_cons, he]
            simp [List.count_append, this]
          rw [hcnt, if_neg he]
          exact hspec r'
      rw [ih (pre ++ [r]) (setAssoc seen r (pre.count r + 1)) hspec']

theorem mem_namesSpec :
    ∀ (rs pre : List String) (x : String), x ∈ namesSpec pre rs →
      ∃ r' c', r' ∈ rs ∧ x = mkToolName c' r' ∧ pre.count r' ≤ c' := by
  intro rs
  induction rs with
  | nil => intro pre x hx; simp [namesSpec] at hx
  | cons r rs ih =>
    intro pre x hx
    simp only [namesSpec, List.mem_cons] at hx
    rcases hx with hx | hx
    · exact ⟨r, pre.count r, by simp, hx, le_refl _⟩
    · obtain ⟨r', c', hmem, hxe, hle⟩ := ih (pre ++ [r]) x hx
      refine ⟨r', c', by simp [hmem], hxe, ?_⟩
      have : pre.count r' ≤ (pre ++ [r]).count r' := by
        simp [List.count_append]
      omega

theorem namesSpec_nodup :
    ∀ (rs pre : List String), (∀ r ∈ rs, endsUnderscoreDigits r = false) →
      (namesSpec pre rs).Nodup := by
  intro rs
  induction rs with
  | nil => intro pre _; simp [namesSpec]
  | cons r rs ih =>
    intro pre hud
    simp only [namesSpec]
    rw [List.nodup_cons]
    constructor
    · intro hmem
      obtain ⟨r', c', hr'mem, hxe, hle⟩ := mem_namesSpec rs (pre ++ [r]) _ hmem
      obtain ⟨he1, he2⟩ := mkToolName_inj r r' (pre.count r) c'
        (hud r (by simp)) (hud r' (by simp [hr'mem])) hxe
      subst he1
      have hcnt : (pre ++ [r]).count r = pre.count r + 1 := by
        simp [List.count_append]
      omega
    · exact ih (pre ++ [r]) (fun r' h => hud r' (by simp [h]))

/-- Claim C1 (corrected, counterexample): three operations whose raw
names are x_list_items, x_list_items, x_list_items_2 (the third path's
final segment items-2 slugifies to items_2) make the parse emit the
name x_list_items_2 twice — once as the collision suffix of the first
pair and once as the raw name of the third operation — so the
tool_name values of one parse pass are not pairwise distinct. -/
theorem C1_counterexample :
    parseToolNames
      [("/api/v1/items", [("get", ⟨["x"]⟩)]),
       ("/api/v2/items", [("get", ⟨["x"]⟩)]),
       ("/api/v1/items-2", [("get", ⟨["x"]⟩)])] =
      ["x_list_items", "x_list_items_2", "x_list_items_2"] ∧
    ¬ (parseToolNames
      [("/api/v1/items", [("get", ⟨["x"]⟩)]),
       ("/api/v2/items", [("get", ⟨["x"]⟩)]),
       ("/api/v1/items-2", [("get", ⟨["x"]⟩)])]).Nodup := by
  refine ⟨by decide, by decide⟩

/-- Claim C1 (amended): one parse pass names the j-th operation by the
count-based rule of namesSpec — the raw name itself on its first
occurrence, and raw_{c+1} when c earlier operations shared that raw
name, so collision suffixes _2, _3, … are assigned in encounter order
— and the resulting tool_name values are pairwise distinct provided no
raw name of the pass itself ends in an underscore followed by digits
(the shape a collision suffix takes). -/
theorem C1_name_dedup (paths : List (String × List (String × SpecOp))) :
    parseToolNames paths = namesSpec [] (rawNames paths)
    ∧ ((∀ r ∈ rawNames paths, endsUnderscoreDigits r = false) →
        (parseToolNames paths).Nodup) := by
  have hchar : parseToolNames paths = namesSpec [] (rawNames paths) :=
    nameLoop_eq_namesSpec (rawNames paths) [] []
      (by intro r; simp [assocLookup])
  refine ⟨hchar, fun hud => ?_⟩
  rw [hchar]
  exact namesSpec_nodup (rawNames paths) [] hud

/-- Witness for C1_name_dedup: a two-operation spec (GET and POST on
the payments path) whose raw names carry no numeric-suffix shape gets
pairwise distinct tool names. -/
theorem C1_name_dedup_witness :
    (parseToolNames
      [("/api/v1/payments", [("get", ⟨["Payments"]⟩), ("post", ⟨["Payments"]⟩)])]).Nodup :=
  (C1_name_dedup
    [("/api/v1/payments", [("get", ⟨["Payments"]⟩), ("post", ⟨["Payments"]⟩)])]).2
    (by decide)

/- ------------------------------------------------------------------
   C7: sanitizer idempotence.
   ------------------------------------------------------------------ -/

theorem entriesOK_cons (k : String) (v : JVal) (t : JObj) :
    entriesOK (.cons k v t) = (entryOK k v && entriesOK t) := rfl

theorem entriesOK_nullable (m : JObj) (h : entriesOK m = true) :
    m.lookup "nullable" = none := by
  induction m using jobjInduction with
  | nil => rfl
  | cons k v t ih =>
    rw [entriesOK_cons, Bool.and_eq_true] at h
    have hk : ¬ (k = "nullable") := by
      intro hkn
      subst hkn
      have hcont : allowedKeywords.contains "nullable" = true := by
        have h1 := h.1
        cases v <;> simp only [entryOK, Bool.and_eq_true] at h1 <;> first
          | exact h1.1
          | exact h1
      exact absurd hcont (by decide)
    simp only [JObj.lookup, if_neg hk]
    exact ih h.2

theorem tailPostOK_tailDefault (r : JObj) : tailPostOK (tailDefault r) = true := by
  rcases tailDefault_post r with h | h | h
  · rw [h]; decide
  · unfold tailPostOK
    simp [h]
  · unfold tailPostOK
    simp [h.1, h.2]

theorem tailDefault_fixed (r : JObj) (h : tailPostOK r = true) :
    tailDefault r = r := by
  unfold tailPostOK at h
  unfold tailDefault
  by_cases h1 : r.isEmpty
  · simp [h1]
  · by_cases h2 : hasTypeBearing r
    · simp [h2]
    · have h3 : (! r.hasKey "enum" && ! r.hasKey "description") = true := by
        rw [Bool.or_eq_true, Bool.or_eq_true] at h
        rcases h with (h | h) | h
        · exact absurd h (by simp [h1])
        · exact absurd h (by simp [h2])
        · exact h
      rw [Bool.and_eq_true] at h3
      have he : r.hasKey "enum" = false := by simpa using h3.1
      have hd : r.hasKey "description" = false := by simpa using h3.2
      simp [h1, h2, he, hd]

theorem entriesOK_erase (m : JObj) (k : String) (h : entriesOK m = true) :
    entriesOK (m.erase k) = true := by
  induction m using jobjInduction with
  | nil => rfl
  | cons k0 v t ih =>
    rw [entriesOK_cons, Bool.and_eq_true] at h
    unfold JObj.erase
    by_cases h0 : k0 = k
    · simp only [h0, if_pos rfl]
      exact h.2
    · rw [if_neg h0, entriesOK_cons, Bool.and_eq_true]
      exact ⟨h.1, ih h.2⟩

theorem entriesOK_set (m : JObj) (k : String) (v : JVal)
    (hv : entryOK k v = true) (h : entriesOK m = true) :
    entriesOK (m.set k v) = true := by
  induction m using jobjInduction with
  | nil =>
    unfold JObj.set
    rw [entriesOK_cons, Bool.and_eq_true]
    exact ⟨hv, rfl⟩
  | cons k0 v0 t ih =>
    rw [entriesOK_cons, Bool.and_eq_true] at h
    unfold JObj.set
    by_cases h0 : k0 = k
    · rw [if_pos h0, entriesOK_cons, Bool.and_eq_true]
      exact ⟨h0 ▸ hv, h.2⟩
    · rw [if_neg h0, entriesOK_cons, Bool.and_eq_true]
      exact ⟨h.1, ih h.2⟩

theorem entryOK_type_any (t : JVal) : entryOK "type" t = true := by
  cases t with
  | obj props =>
    unfold entryOK
    rw [if_neg (by decide), if_neg (by decide), if_neg (by decide), if_neg (by decide)]
    decide
  | arr xs =>
    unfold entryOK
    rw [if_neg (by decide), if_neg (by decide), if_neg (by decide)]
    decide
  | float q =>
    unfold entryOK
    rw [if_neg (by decide)]
    decide
  | str s => unfold entryOK; decide
  | int n => unfold entryOK; decide
  | bool b => unfold entryOK; decide
  | null => unfold entryOK; decide

theorem entriesOK_typePair (t : JVal) :
    entriesOK (.cons "type" t .nil) = true := by
  rw [entriesOK_cons, Bool.and_eq_true]
  exact ⟨entryOK_type_any t, rfl⟩

theorem tailPostOK_typePair (t : JVal) :
    tailPostOK (.cons "type" t .nil) = true := by
  unfold tailPostOK hasTypeBearing JObj.hasKey JObj.lookup
  simp

theorem entryOK_anyOf_pair (t : JVal) :
    entryOK "anyOf"
      (.arr (.cons (.obj (.cons "type" t .nil))
        (.cons (.obj (.cons "type" (.str "null") .nil)) .nil))) = true := by
  unfold entryOK
  rw [if_neg (by decide), if_neg (by decide), if_pos (by decide)]
  refine (Bool.and_eq_true _ _).mpr ⟨by decide, ?_⟩
  unfold arrOK
  refine (Bool.and_eq_true _ _).mpr ⟨?_, ?_⟩
  · exact (Bool.and_eq_true _ _).mpr ⟨entriesOK_typePair t, tailPostOK_typePair t⟩
  · decide

theorem entriesOK_nullRewrite (b : Bool) (r : JObj) (h : entriesOK r = true) :
    entriesOK (nullRewrite b r) = true := by
  unfold nullRewrite
  by_cases hc : (b && r.hasKey "type") = true
  · rw [if_pos hc]
    cases hl : r.lookup "type" with
    | none => exact h
    | some t =>
      exact entriesOK_set _ _ _ (entryOK_anyOf_pair t) (entriesOK_erase r "type" h)
  · rw [if_neg hc]
    exact h

theorem entryOK_type_string : entryOK "type" (.str "string") = true := by decide

theorem entriesOK_tailDefault (r : JObj) (h : entriesOK r = true) :
    entriesOK (tailDefault r) = true := by
  unfold tailDefault
  by_cases h1 : (! r.isEmpty && ! hasTypeBearing r) = true
  · rw [if_pos h1]
    by_cases h2 : (r.hasKey "enum" || r.hasKey "description") = true
    · rw [if_pos h2]
      exact entriesOK_set _ _ _ entryOK_type_string h
    · rw [if_neg h2]
      exact h
  · rw [if_neg h1]
    exact h

theorem entriesOK_sanPost (src r : JObj) (h : entriesOK r = true) :
    entriesOK (sanPost src r) = true :=
  entriesOK_tailDefault _ (entriesOK_nullRewrite _ _ h)

theorem tailPostOK_sanPost (src r : JObj) :
    tailPostOK (sanPost src r) = true :=
  tailPostOK_tailDefault _

theorem sanPost_fixed (m : JObj) (he : entriesOK m = true)
    (ht : tailPostOK m = true) : sanPost m m = m := by
  unfold sanPost
  have hb : pyTruthy (m.getD "nullable" (.bool false)) = false := by
    unfold JObj.getD
    rw [entriesOK_nullable m he]
    rfl
  rw [hb]
  have hnr : nullRewrite false m = m := by
    unfold nullRewrite
    simp
  rw [hnr]
  exact tailDefault_fixed m ht

theorem isCombinator_cases (k : String) (h : isCombinator k = true) :
    k = "anyOf" ∨ k = "oneOf" ∨ k = "allOf" := by
  unfold isCombinator at h
  rw [Bool.or_eq_true, Bool.or_eq_true] at h
  rcases h with (h | h) | h <;> simp only [decide_eq_true_eq] at h <;> tauto

theorem isCombinator_not_numeric (k : String) (h : isCombinator k = true) :
    numericKeywords.contains k = false := by
  rcases isCombinator_cases k h with h | h | h <;> subst h <;> decide

theorem entryOK_obj_other (k : String) (X : JObj)
    (hall : allowedKeywords.contains k = true)
    (h1 : k ≠ "properties") (h2 : k ≠ "items") (h4 : k ≠ "additionalProperties") :
    entryOK k (.obj X) = true := by
  have hall' : k ∈ allowedKeywords := by simpa using hall
  unfold entryOK
  rw [if_neg h1, if_neg h2]
  by_cases hc : isCombinator k
  · simp [hall', hc]
  · simp [hall', hc, h4]

theorem entryOK_arr_other (k : String) (xs : JArr)
    (hall : allowedKeywords.contains k = true) (hc : isCombinator k = false) :
    entryOK k (.arr xs) = true := by
  have hall' : k ∈ allowedKeywords := by simpa using hall
  unfold entryOK
  by_cases h1 : k = "properties"
  · simp [h1]
    decide
  · by_cases h2 : k = "items"
    · simp [h1, h2]
      decide
    · simp [hall', h1, h2, hc]

theorem entryOK_float_other (k : String) (q : Rat)
    (hall : allowedKeywords.contains k = true)
    (hn : numericKeywords.contains k = false) :
    entryOK k (.float q) = true := by
  have hall' : k ∈ allowedKeywords := by simpa using hall
  unfold entryOK
  simp [hall']
  exact Or.inl (by simpa using hn)

theorem entryOK_str (k : String) (s : String)
    (hall : allowedKeywords.contains k = true) : entryOK k (.str s) = true := by
  unfold entryOK; exact hall

theorem entryOK_int (k : String) (n : Int)
    (hall : allowedKeywords.contains k = true) : entryOK k (.int n) = true := by
  unfold entryOK; exact hall

theorem entryOK_bool (k : String) (b : Bool)
    (hall : allowedKeywords.contains k = true) : entryOK k (.bool b) = true := by
  unfold entryOK; exact hall

theorem entryOK_null (k : String)
    (hall : allowedKeywords.contains k = true) : entryOK k JVal.null = true := by
  unfold entryOK; exact hall

theorem sanOutOK : ∀ (n : Nat),
    (∀ m : JObj, sizeOf m ≤ n → entriesOK (sanEntries m) = true)
    ∧ (∀ o : JObj, sizeOf o ≤ n → propsOK (sanProps o) = true)
    ∧ (∀ a : JArr, sizeOf a ≤ n → arrOK (sanMembers a) = true) := by
  intro n
  induction n with
  | zero =>
    refine ⟨?_, ?_, ?_⟩
    · intro m hm
      exact absurd hm (by cases m <;> simp)
    · intro o ho
      exact absurd ho (by cases o <;> simp)
    · intro a ha
      exact absurd ha (by cases a <;> simp)
  | succ n ih =>
    obtain ⟨ih1, ih2, ih3⟩ := ih
    refine ⟨?_, ?_, ?_⟩
    · intro m hm
      cases m with
      | nil => decide
      | cons k v t =>
        have hst : sizeOf t ≤ n := by
          have e1 : sizeOf (JObj.cons k v t) = 1 + sizeOf k + sizeOf v + sizeOf t := by
            simp
          omega
        have ht := ih1 t hst
        have hkeep : ∀ v', entryOK k v' = true →
            entriesOK (.cons k v' (sanEntries t)) = true := by
          intro v' hv'
          rw [entriesOK_cons, Bool.and_eq_true]
          exact ⟨hv', ht⟩
        unfold sanEntries
        by_cases ha : allowedKeywords.contains k
        case neg =>
          rw [if_pos (by simpa using ha)]
          exact ht
        case pos =>
          rw [if_neg (by simpa using ha)]
          by_cases h1 : k = "properties"
          · rw [if_pos h1]
            cases v with
            | obj props =>
              have hsp : sizeOf props ≤ n := by
                have e1 : sizeOf (JObj.cons k (JVal.obj props) t) =
                    1 + sizeOf k + sizeOf (JVal.obj props) + sizeOf t := by simp
                have e2 : sizeOf (JVal.obj props) = 1 + sizeOf props := by simp
                omega
              show entriesOK (.cons k (.obj (sanProps props)) (sanEntries t)) = true
              refine hkeep _ ?_
              unfold entryOK
              rw [if_pos h1]
              exact (Bool.and_eq_true _ _).mpr ⟨ha, ih2 props hsp⟩
            | arr xs =>
              exact hkeep _ (entryOK_arr_other k xs ha (by rw [h1]; decide))
            | str s => exact hkeep _ (entryOK_str k s ha)
            | int i => exact hkeep _ (entryOK_int k i ha)
            | float q => exact hkeep _ (entryOK_float_other k q ha (by rw [h1]; decide))
            | bool b => exact hkeep _ (entryOK_bool k b ha)
            | null => exact hkeep _ (entryOK_null k ha)
          · rw [if_neg h1]
            by_cases h2 : k = "items"
            · rw [if_pos h2]
              cases v with
              | obj m' =>
                have hsm : sizeOf m' ≤ n := by
                  have e1 : sizeOf (JObj.cons k (JVal.obj m') t) =
                      1 + sizeOf k + sizeOf (JVal.obj m') + sizeOf t := by simp
                  have e2 : sizeOf (JVal.obj m') = 1 + sizeOf m' := by simp
                  omega
                show entriesOK
                  (.cons k (.obj (sanPost m' (sanEntries m'))) (sanEntries t)) = true
                refine hkeep _ ?_
                unfold entryOK
                rw [if_neg h1, if_pos h2]
                refine (Bool.and_eq_true _ _).mpr ⟨ha, ?_⟩
                refine (Bool.and_eq_true _ _).mpr ⟨?_, tailPostOK_sanPost _ _⟩
                exact entriesOK_sanPost m' _ (ih1 m' hsm)
              | arr xs =>
                exact hkeep _ (entryOK_arr_other k xs ha (by rw [h2]; decide))
              | str s => exact hkeep _ (entryOK_str k s ha)
              | int i => exact hkeep _ (entryOK_int k i ha)
              | float q => exact hkeep _ (entryOK_float_other k q ha (by rw [h2]; decide))
              | bool b => exact hkeep _ (entryOK_bool k b ha)
              | null => exact hkeep _ (entryOK_null k ha)
            · rw [if_neg h2]
              by_cases hc : isCombinator k
              · rw [if_pos hc]
                have h4 : k ≠ "additionalProperties" := by
                  intro hk
                  rw [hk] at hc
                  exact absurd hc (by decide)
                cases v with
                | arr xs =>
                  have hsa : sizeOf xs ≤ n := by
                    have e1 : sizeOf (JObj.cons k (JVal.arr xs) t) =
                        1 + sizeOf k + sizeOf (JVal.arr xs) + sizeOf t := by simp
                    have e2 : sizeOf (JVal.arr xs) = 1 + sizeOf xs := by simp
                    omega
                  show entriesOK (.cons k (.arr (sanMembers xs)) (sanEntries t)) = true
                  refine hkeep _ ?_
                  unfold entryOK
                  rw [if_neg h1, if_neg h2, if_pos hc]
                  exact (Bool.and_eq_true _ _).mpr ⟨ha, ih3 xs hsa⟩
                | obj props => exact hkeep _ (entryOK_obj_other k props ha h1 h2 h4)
                | str s => exact hkeep _ (entryOK_str k s ha)
                | int i => exact hkeep _ (entryOK_int k i ha)
                | float q =>
                  exact hkeep _ (entryOK_float_other k q ha (isCombinator_not_numeric k hc))
                | bool b => exact hkeep _ (entryOK_bool k b ha)
                | null => exact hkeep _ (entryOK_null k ha)
              · rw [if_neg hc]
                by_cases h4 : k = "additionalProperties"
                · rw [if_pos h4]
                  cases v with
                  | obj m' =>
                    have hsm : sizeOf m' ≤ n := by
                      have e1 : sizeOf (JObj.cons k (JVal.obj m') t) =
                          1 + sizeOf k + sizeOf (JVal.obj m') + sizeOf t := by simp
                      have e2 : sizeOf (JVal.obj m') = 1 + sizeOf m' := by simp
                      omega
                    show entriesOK
                      (.cons k (.obj (sanPost m' (sanEntries m'))) (sanEntries t)) = true
                    refine hkeep _ ?_
                    unfold entryOK
                    rw [if_neg h1, if_neg h2]
                    rw [if_neg (by simpa using hc), if_pos h4]
                    refine (Bool.and_eq_true _ _).mpr ⟨ha, ?_⟩
                    refine (Bool.and_eq_true _ _).mpr ⟨?_, tailPostOK_sanPost _ _⟩
                    exact entriesOK_sanPost m' _ (ih1 m' hsm)
                  | arr xs =>
                    exact hkeep _ (entryOK_arr_other k xs ha (by simpa using hc))
                  | str s => exact hkeep _ (entryOK_str k s ha)
                  | int i => exact hkeep _ (entryOK_int k i ha)
                  | float q =>
                    exact hkeep _ (entryOK_float_other k q ha (by rw [h4]; decide))
                  | bool b => exact hkeep _ (entryOK_bool k b ha)
                  | null => exact hkeep _ (entryOK_null k ha)
                · rw [if_neg h4]
                  by_cases hn : numericKeywords.contains k
                  · rw [if_pos (by simpa using hn)]
                    cases v with
                    | float q =>
                      show entriesOK (.cons k (coerceNum q) (sanEntries t)) = true
                      by_cases hint : ((ratTrunc q : Int) : Rat) = q
                      · have hco : coerceNum q = .int (ratTrunc q) := by
                          unfold coerceNum
                          rw [if_pos hint]
                        rw [hco]
                        exact hkeep _ (entryOK_int k _ ha)
                      · have hco : coerceNum q = .float q := by
                          unfold coerceNum
                          rw [if_neg hint]
                        rw [hco]
                        refine hkeep _ ?_
                        unfold entryOK
                        rw [if_pos (by simpa using hn)]
                        refine (Bool.and_eq_true _ _).mpr ⟨ha, ?_⟩
                        simp [hint]
                    | obj props => exact hkeep _ (entryOK_obj_other k props ha h1 h2 h4)
                    | arr xs => exact hkeep _ (entryOK_arr_other k xs ha (by simpa using hc))
                    | str s => exact hkeep _ (entryOK_str k s ha)
                    | int i => exact hkeep _ (entryOK_int k i ha)
                    | bool b => exact hkeep _ (entryOK_bool k b ha)
                    | null => exact hkeep _ (entryOK_null k ha)
                  · rw [if_neg (by simpa using hn)]
                    cases v with
                    | obj props => exact hkeep _ (entryOK_obj_other k props ha h1 h2 h4)
                    | arr xs => exact hkeep _ (entryOK_arr_other k xs ha (by simpa using hc))
                    | str s => exact hkeep _ (entryOK_str k s ha)
                    | int i => exact hkeep _ (entryOK_int k i ha)
                    | float q =>
                      exact hkeep _ (entryOK_float_other k q ha (by simpa using hn))
                    | bool b => exact hkeep _ (entryOK_bool k b ha)
                    | null => exact hkeep _ (entryOK_null k ha)
    · intro o ho
      cases o with
      | nil => decide
      | cons k v t =>
        have hst : sizeOf t ≤ n := by
          have e1 : sizeOf (JObj.cons k v t) = 1 + sizeOf k + sizeOf v + sizeOf t := by
            simp
          omega
        have ht := ih2 t hst
        unfold sanProps
        cases v with
        | obj m' =>
          have hsm : sizeOf m' ≤ n := by
            have e1 : sizeOf (JObj.cons k (JVal.obj m') t) =
                1 + sizeOf k + sizeOf (JVal.obj m') + sizeOf t := by simp
            have e2 : sizeOf (JVal.obj m') = 1 + sizeOf m' := by simp
            omega
          show propsOK (.cons k (.obj (sanPost m' (sanEntries m'))) (sanProps t)) = true
          unfold propsOK
          refine (Bool.and_eq_true _ _).mpr ⟨?_, ht⟩
          refine (Bool.and_eq_true _ _).mpr ⟨?_, tailPostOK_sanPost _ _⟩
          exact entriesOK_sanPost m' _ (ih1 m' hsm)
        | arr xs =>
          show propsOK (.cons k (.arr xs) (sanProps t)) = true
          unfold propsOK
          exact (Bool.and_eq_true _ _).mpr ⟨rfl, ht⟩
        | str s =>
          show propsOK (.cons k (.str s) (sanProps t)) = true
          unfold propsOK
          exact (Bool.and_eq_true _ _).mpr ⟨rfl, ht⟩
        | int i =>
          show propsOK (.cons k (.int i) (sanProps t)) = true
          unfold propsOK
          exact (Bool.and_eq_true _ _).mpr ⟨rfl, ht⟩
        | float q =>
          show propsOK (.cons k (.float q) (sanProps t)) = true
          unfold propsOK
          exact (Bool.and_eq_true _ _).mpr ⟨rfl, ht⟩
        | bool b =>
          show propsOK (.cons k (.bool b) (sanProps t)) = true
          unfold propsOK
          exact (Bool.and_eq_true _ _).mpr ⟨rfl, ht⟩
        | null =>
          show propsOK (.cons k JVal.null (sanProps t)) = true
          unfold propsOK
          exact (Bool.and_eq_true _ _).mpr ⟨rfl, ht⟩
    · intro a ha
      cases a with
      | nil => decide
      | cons v t =>
        have hst : sizeOf t ≤ n := by
          have e1 : sizeOf (JArr.cons v t) = 1 + sizeOf v + sizeOf t := by simp
          omega
        have ht := ih3 t hst
        unfold sanMembers
        cases v with
        | obj m' =>
          have hsm : sizeOf m' ≤ n := by
            have e1 : sizeOf (JArr.cons (JVal.obj m') t) =
                1 + sizeOf (JVal.obj m') + sizeOf t := by simp
            have e2 : sizeOf (JVal.obj m') = 1 + sizeOf m' := by simp
            omega
          show arrOK (.cons (.obj (sanPost m' (sanEntries m'))) (sanMembers t)) = true
          unfold arrOK
          refine (Bool.and_eq_true _ _).mpr ⟨?_, ht⟩
          refine (Bool.and_eq_true _ _).mpr ⟨?_, tailPostOK_sanPost _ _⟩
          exact entriesOK_sanPost m' _ (ih1 m' hsm)
        | arr xs =>
          show arrOK (.cons (.arr xs) (sanMembers t)) = true
          unfold arrOK
          exact (Bool.and_eq_true _ _).mpr ⟨rfl, ht⟩
        | str s =>
          show arrOK (.cons (.str s) (sanMembers t)) = true
          unfold arrOK
          exact (Bool.and_eq_true _ _).mpr ⟨rfl, ht⟩
        | int i =>
          show arrOK (.cons (.int i) (sanMembers t)) = true
          unfold arrOK
          exact (Bool.and_eq_true _ _).mpr ⟨rfl, ht⟩
        | float q =>
          show arrOK (.cons (.float q) (sanMembers t)) = true
          unfold arrOK
          exact (Bool.and_eq_true _ _).mpr ⟨rfl, ht⟩
        | bool b =>
          show arrOK (.cons (.bool b) (sanMembers t)) = true
          unfold arrOK
          exact (Bool.and_eq_true _ _).mpr ⟨rfl, ht⟩
        | null =>
          show arrOK (.cons JVal.null (sanMembers t)) = true
          unfold arrOK
          exact (Bool.and_eq_true _ _).mpr ⟨rfl, ht⟩

theorem sanFixedPoint : ∀ (n : Nat),
    (∀ m : JObj, sizeOf m ≤ n → entriesOK m = true → sanEntries m = m)
    ∧ (∀ o : JObj, sizeOf o ≤ n → propsOK o = true → sanProps o = o)
    ∧ (∀ a : JArr, sizeOf a ≤ n → arrOK a = true → sanMembers a = a) := by
  intro n
  induction n with
  | zero =>
    refine ⟨?_, ?_, ?_⟩
    · intro m hm _
      exact absurd hm (by cases m <;> simp)
    · intro o ho _
      exact absurd ho (by cases o <;> simp)
    · intro a ha _
      exact absurd ha (by cases a <;> simp)
  | succ n ih =>
    obtain ⟨ih1, ih2, ih3⟩ := ih
    refine ⟨?_, ?_, ?_⟩
    · intro m hm h
      cases m with
      | nil => rfl
      | cons k v t =>
        have hst : sizeOf t ≤ n := by
          have e1 : sizeOf (JObj.cons k v t) = 1 + sizeOf k + sizeOf v + sizeOf t := by
            simp
          omega
        rw [entriesOK_cons, Bool.and_eq_true] at h
        obtain ⟨hv, htail⟩ := h
        have ht : sanEntries t = t := ih1 t hst htail
        have ha : allowedKeywords.contains k = true := by
          cases v <;> simp only [entryOK, Bool.and_eq_true] at hv <;> first
            | exact hv.1
            | exact hv
        unfold sanEntries
        rw [if_neg (by simpa using ha)]
        by_cases h1 : k = "properties"
        · rw [if_pos h1]
          cases v with
          | obj props =>
            have hsp : sizeOf props ≤ n := by
              have e1 : sizeOf (JObj.cons k (JVal.obj props) t) =
                  1 + sizeOf k + sizeOf (JVal.obj props) + sizeOf t := by simp
              have e2 : sizeOf (JVal.obj props) = 1 + sizeOf props := by simp
              omega
            have hp : propsOK props = true := by
              simp only [entryOK, Bool.and_eq_true] at hv
              rw [if_pos h1] at hv
              exact hv.2
            show JObj.cons k (.obj (sanProps props)) (sanEntries t) =
              JObj.cons k (.obj props) t
            rw [ih2 props hsp hp, ht]
          | arr xs =>
            show JObj.cons k (.arr xs) (sanEntries t) = JObj.cons k (.arr xs) t
            rw [ht]
          | str s =>
            show JObj.cons k (.str s) (sanEntries t) = JObj.cons k (.str s) t
            rw [ht]
          | int i =>
            show JObj.cons k (.int i) (sanEntries t) = JObj.cons k (.int i) t
            rw [ht]
          | float q =>
            show JObj.cons k (.float q) (sanEntries t) = JObj.cons k (.float q) t
            rw [ht]
          | bool b =>
            show JObj.cons k (.bool b) (sanEntries t) = JObj.cons k (.bool b) t
            rw [ht]
          | null =>
            show JObj.cons k JVal.null (sanEntries t) = JObj.cons k JVal.null t
            rw [ht]
        · rw [if_neg h1]
          by_cases h2 : k = "items"
          · rw [if_pos h2]
            cases v with
            | obj m' =>
              have hsm : sizeOf m' ≤ n := by
                have e1 : sizeOf (JObj.cons k (JVal.obj m') t) =
                    1 + sizeOf k + sizeOf (JVal.obj m') + sizeOf t := by simp
                have e2 : sizeOf (JVal.obj m') = 1 + sizeOf m' := by simp
                omega
              have hpair : entriesOK m' = true ∧ tailPostOK m' = true := by
                simp only [entryOK, Bool.and_eq_true] at hv
                rw [if_neg h1, if_pos h2] at hv
                exact (Bool.and_eq_true _ _).mp hv.2
              have hsan : sanEntries m' = m' := ih1 m' hsm hpair.1
              show JObj.cons k (.obj (sanPost m' (sanEntries m'))) (sanEntries t) =
                JObj.cons k (.obj m') t
              rw [hsan, sanPost_fixed m' hpair.1 hpair.2, ht]
            | arr xs =>
              show JObj.cons k (.arr xs) (sanEntries t) = JObj.cons k (.arr xs) t
              rw [ht]
            | str s =>
              show JObj.cons k (.str s) (sanEntries t) = JObj.cons k (.str s) t
              rw [ht]
            | int i =>
              show JObj.cons k (.int i) (sanEntries t) = JObj.cons k (.int i) t
              rw [ht]
            | float q =>
              show JObj.cons k (.float q) (sanEntries t) = JObj.cons k (.float q) t
              rw [ht]
            | bool b =>
              show JObj.cons k (.bool b) (sanEntries t) = JObj.cons k (.bool b) t
              rw [ht]
            | null =>
              show JObj.cons k JVal.null (sanEntries t) = JObj.cons k JVal.null t
              rw [ht]
          · rw [if_neg h2]
            by_cases hc : isCombinator k
            · rw [if_pos hc]
              cases v with
              | arr xs =>
                have hsa : sizeOf xs ≤ n := by
                  have e1 : sizeOf (JObj.cons k (JVal.arr xs) t) =
                      1 + sizeOf k + sizeOf (JVal.arr xs) + sizeOf t := by simp
                  have e2 : sizeOf (JVal.arr xs) = 1 + sizeOf xs := by simp
                  omega
                have hx : arrOK xs = true := by
                  simp only [entryOK, Bool.and_eq_true] at hv
                  rw [if_neg h1, if_neg h2, if_pos hc] at hv
                  exact hv.2
                show JObj.cons k (.arr (sanMembers xs)) (sanEntries t) =
                  JObj.cons k (.arr xs) t
                rw [ih3 xs hsa hx, ht]
              | obj props =>
                show JObj.cons k (.obj props) (sanEntries t) = JObj.cons k (.obj props) t
                rw [ht]
              | str s =>
                show JObj.cons k (.str s) (sanEntries t) = JObj.cons k (.str s) t
                rw [ht]
              | int i =>
                show JObj.cons k (.int i) (sanEntries t) = JObj.cons k (.int i) t
                rw [ht]
              | float q =>
                show JObj.cons k (.float q) (sanEntries t) = JObj.cons k (.float q) t
                rw [ht]
              | bool b =>
                show JObj.cons k (.bool b) (sanEntries t) = JObj.cons k (.bool b) t
                rw [ht]
              | null =>
                show JObj.cons k JVal.null (sanEntries t) = JObj.cons k JVal.null t
                rw [ht]
            · rw [if_neg hc]
              by_cases h4 : k = "additionalProperties"
              · rw [if_pos h4]
                cases v with
                | obj m' =>
                  have hsm : sizeOf m' ≤ n := by
                    have e1 : sizeOf (JObj.cons k (JVal.obj m') t) =
                        1 + sizeOf k + sizeOf (JVal.obj m') + sizeOf t := by simp
                    have e2 : sizeOf (JVal.obj m') = 1 + sizeOf m' := by simp
                    omega
                  have hpair : entriesOK m' = true ∧ tailPostOK m' = true := by
                    simp only [entryOK, Bool.and_eq_true] at hv
                    rw [if_neg h1, if_neg h2, if_neg (by simpa using hc), if_pos h4] at hv
                    exact (Bool.and_eq_true _ _).mp hv.2
                  have hsan : sanEntries m' = m' := ih1 m' hsm hpair.1
                  show JObj.cons k (.obj (sanPost m' (sanEntries m'))) (sanEntries t) =
                    JObj.cons k (.obj m') t
                  rw [hsan, sanPost_fixed m' hpair.1 hpair.2, ht]
                | arr xs =>
                  show JObj.cons k (.arr xs) (sanEntries t) = JObj.cons k (.arr xs) t
                  rw [ht]
                | str s =>
                  show JObj.cons k (.str s) (sanEntries t) = JObj.cons k (.str s) t
                  rw [ht]
                | int i =>
                  show JObj.cons k (.int i) (sanEntries t) = JObj.cons k (.int i) t
                  rw [ht]
                | float q =>
                  show JObj.cons k (.float q) (sanEntries t) = JObj.cons k (.float q) t
                  rw [ht]
                | bool b =>
                  show JObj.cons k (.bool b) (sanEntries t) = JObj.cons k (.bool b) t
                  rw [ht]
                | null =>
                  show JObj.cons k JVal.null (sanEntries t) = JObj.cons k JVal.null t
                  rw [ht]
              · rw [if_neg h4]
                by_cases hn : numericKeywords.contains k
                · rw [if_pos (by simpa using hn)]
                  cases v with
                  | float q =>
                    have hint : ¬ (((ratTrunc q : Int) : Rat) = q) := by
                      simp only [entryOK, Bool.and_eq_true] at hv
                      rw [if_pos (by simpa using hn)] at hv
                      simpa using hv.2
                    have hco : coerceNum q = .float q := by
                      unfold coerceNum
                      rw [if_neg hint]
                    show JObj.cons k (coerceNum q) (sanEntries t) =
                      JObj.cons k (.float q) t
                    rw [hco, ht]
                  | obj props =>
                    show JObj.cons k (.obj props) (sanEntries t) =
                      JObj.cons k (.obj props) t
                    rw [ht]
                  | arr xs =>
                    show JObj.cons k (.arr xs) (sanEntries t) = JObj.cons k (.arr xs) t
                    rw [ht]
                  | str s =>
                    show JObj.cons k (.str s) (sanEntries t) = JObj.cons k (.str s) t
                    rw [ht]
                  | int i =>
                    show JObj.cons k (.int i) (sanEntries t) = JObj.cons k (.int i) t
                    rw [ht]
                  | bool b =>
                    show JObj.cons k (.bool b) (sanEntries t) = JObj.cons k (.bool b) t
                    rw [ht]
                  | null =>
                    show JObj.cons k JVal.null (sanEntries t) = JObj.cons k JVal.null t
                    rw [ht]
                · rw [if_neg (by simpa using hn)]
                  show JObj.cons k v (sanEntries t) = JObj.cons k v t
                  rw [ht]
    · intro o ho h
      cases o with
      | nil => rfl
      | cons k v t =>
        have hst : sizeOf t ≤ n := by
          have e1 : sizeOf (JObj.cons k v t) = 1 + sizeOf k + sizeOf v + sizeOf t := by
            simp
          omega
        unfold sanProps
        cases v with
        | obj m' =>
          have hsm : sizeOf m' ≤ n := by
            have e1 : sizeOf (JObj.cons k (JVal.obj m') t) =
                1 + sizeOf k + sizeOf (JVal.obj m') + sizeOf t := by simp
            have e2 : sizeOf (JVal.obj m') = 1 + sizeOf m' := by simp
            omega
          simp only [propsOK, Bool.and_eq_true] at h
          obtain ⟨hpair, htail⟩ := h
          have hsan : sanEntries m' = m' := ih1 m' hsm hpair.1
          show JObj.cons k (.obj (sanPost m' (sanEntries m'))) (sanProps t) =
            JObj.cons k (.obj m') t
          rw [hsan, sanPost_fixed m' hpair.1 hpair.2, ih2 t hst htail]
        | arr xs =>
          simp only [propsOK, Bool.and_eq_true] at h
          show JObj.cons k (.arr xs) (sanProps t) = JObj.cons k (.arr xs) t
          rw [ih2 t hst h.2]
        | str s =>
          simp only [propsOK, Bool.and_eq_true] at h
          show JObj.cons k (.str s) (sanProps t) = JObj.cons k (.str s) t
          rw [ih2 t hst h.2]
        | int i =>
          simp only [propsOK, Bool.and_eq_true] at h
          show JObj.cons k (.int i) (sanProps t) = JObj.cons k (.int i) t
          rw [ih2 t hst h.2]
        | float q =>
          simp only [propsOK, Bool.and_eq_true] at h
          show JObj.cons k (.float q) (sanProps t) = JObj.cons k (.float q) t
          rw [ih2 t hst h.2]
        | bool b =>
          simp only [propsOK, Bool.and_eq_true] at h
          show JObj.cons k (.bool b) (sanProps t) = JObj.cons k (.bool b) t
          rw [ih2 t hst h.2]
        | null =>
          simp only [propsOK, Bool.and_eq_true] at h
          show JObj.cons k JVal.null (sanProps t) = JObj.cons k JVal.null t
          rw [ih2 t hst h.2]
    · intro a hsz h
      cases a with
      | nil => rfl
      | cons v t =>
        have hst : sizeOf t ≤ n := by
          have e1 : sizeOf (JArr.cons v t) = 1 + sizeOf v + sizeOf t := by simp
          omega
        unfold sanMembers
        cases v with
        | obj m' =>
          have hsm : sizeOf m' ≤ n := by
            have e1 : sizeOf (JArr.cons (JVal.obj m') t) =
                1 + sizeOf (JVal.obj m') + sizeOf t := by simp
            have e2 : sizeOf (JVal.obj m') = 1 + sizeOf m' := by simp
            omega
          simp only [arrOK, Bool.and_eq_true] at h
          obtain ⟨hpair, htail⟩ := h
          have hsan : sanEntries m' = m' := ih1 m' hsm hpair.1
          show JArr.cons (.obj (sanPost m' (sanEntries m'))) (sanMembers t) =
            JArr.cons (.obj m') t
          rw [hsan, sanPost_fixed m' hpair.1 hpair.2, ih3 t hst htail]
        | arr xs =>
          simp only [arrOK, Bool.and_eq_true] at h
          show JArr.cons (.arr xs) (sanMembers t) = JArr.cons (.arr xs) t
          rw [ih3 t hst h.2]
        | str s =>
          simp only [arrOK, Bool.and_eq_true] at h
          show JArr.cons (.str s) (sanMembers t) = JArr.cons (.str s) t
          rw [ih3 t hst h.2]
        | int i =>
          simp only [arrOK, Bool.and_eq_true] at h
          show JArr.cons (.int i) (sanMembers t) = JArr.cons (.int i) t
          rw [ih3 t hst h.2]
        | float q =>
          simp only [arrOK, Bool.and_eq_true] at h
          show JArr.cons (.float q) (sanMembers t) = JArr.cons (.float q) t
          rw [ih3 t hst h.2]
        | bool b =>
          simp only [arrOK, Bool.and_eq_true] at h
          show JArr.cons (.bool b) (sanMembers t) = JArr.cons (.bool b) t
          rw [ih3 t hst h.2]
        | null =>
          simp only [arrOK, Bool.and_eq_true] at h
          show JArr.cons JVal.null (sanMembers t) = JArr.cons JVal.null t
          rw [ih3 t hst h.2]

/-- C7: ToolRegistry._sanitize_schema is idempotent: sanitizing an
already-sanitized schema dict returns it unchanged. -/
theorem C7_sanitize_idempotent (m : JObj) :
    sanitizeSchema (sanitizeSchema m) = sanitizeSchema m := by
  have hout : entriesOK (sanEntries m) = true :=
    (sanOutOK (sizeOf m)).1 m (Nat.le_refl _)
  have hX : entriesOK (sanitizeSchema m) = true := entriesOK_sanPost m _ hout
  have hT : tailPostOK (sanitizeSchema m) = true := tailPostOK_sanPost m _
  have hfix : sanEntries (sanitizeSchema m) = sanitizeSchema m :=
    (sanFixedPoint (sizeOf (sanitizeSchema m))).1 _ (Nat.le_refl _) hX
  show sanPost (sanitizeSchema m) (sanEntries (sanitizeSchema m)) = sanitizeSchema m
  rw [hfix]
  exact sanPost_fixed _ hX hT
